import Mathlib

/-!
Verification of the day-20 jigsaw tile solver (`src/bin/day20.rs`).

Matrices (`ndarray::Array2<u8>`) are embedded as lists of rows
(`List (List Nat)`).  The ndarray slicing/`reversed_axes` operations used by
the source are strided views; they are embedded entrywise through the
constructor `build`, whose entry formulas are exactly the slice semantics of
the source (`s![.., ..;-1]`, `reversed_axes`, …).  Machine integers (`i32`,
`usize`) are embedded as `Int`/`Nat`; the edge-fingerprint accumulator keeps
only the low 32 bits (`% 2 ^ 32`) of the fold, exactly as the source's `i32`
shift `(bits << 1) | bit` silently discards bits pushed past position 31 —
it does overflow, without panicking, on edges of 33 or more cells, a size
the parser accepts.  Fatal conditions (`panic!`,
`assert!`, `.expect`) are embedded as `Option`/`none`.
-/

namespace Day20

/-- A 0/1 matrix, stored as a list of rows (row-major, like `Array2<u8>`). -/
abbrev Mat := List (List Nat)

/-- Entry lookup with ndarray's in-bounds semantics; out-of-bounds reads
default to 0 (all uses in the embedded code are in bounds). -/
def mget (M : Mat) (i j : Nat) : Nat := (M.getD i []).getD j 0

/-- Build an `r × c` matrix from an entry formula (the shallow embedding of an
ndarray strided view, materialised). -/
def build (r c : Nat) (f : Nat → Nat → Nat) : Mat :=
  (List.range r).map (fun i => (List.range c).map (fun j => f i j))

/-- `Array2::nrows`. -/
def nrows (M : Mat) : Nat := M.length

/-- `Array2::ncols` (row-major: the length of the first row). -/
def ncols (M : Mat) : Nat := (M.headD []).length

/-- The matrix is square of size `n` (every row has length `n`). -/
def IsSquare (M : Mat) (n : Nat) : Prop :=
  M.length = n ∧ ∀ row ∈ M, row.length = n

instance (M : Mat) (n : Nat) : Decidable (IsSquare M n) := by
  unfold IsSquare; infer_instance

/-- The four compass directions (`enum Direction`). -/
inductive Direction where
  | N | E | S | W
deriving DecidableEq, Repr

/-- `Direction::all`. -/
def Direction.all : List Direction := [.N, .E, .S, .W]

/-- `opposite_direction`. -/
def opposite_direction (d : Direction) : Direction :=
  match d with
  | .N => .S
  | .E => .W
  | .S => .N
  | .W => .E

/-- Grid position (`struct Position`); +y is north, +x is east. -/
structure Position where
  x : Int
  y : Int
deriving DecidableEq, Repr

/-- Tile identifier (`struct TileId`, an `i32`). -/
structure TileId where
  val : Int
deriving DecidableEq, Repr

/-- The four counter-clockwise rotations (`enum Rotation`). -/
inductive Rotation where
  | Zero | One | Two | Three
deriving DecidableEq, Repr

/-- One of the 8 dihedral manipulations (`struct Manipulation`). -/
structure Manipulation where
  rot : Rotation
  flip : Bool
deriving DecidableEq, Repr

/-- `Manipulation::new`: decode a number 0..7 (`n & 3` selects the rotation,
`n & 4` the flip). -/
def Manipulation.new (n : Nat) : Manipulation :=
  { rot := match n % 4 with
      | 0 => .Zero
      | 1 => .One
      | 2 => .Two
      | _ => .Three
    flip := n &&& 4 == 4 }

/-- `Manipulation::noop`. -/
def Manipulation.noop : Manipulation := { rot := .Zero, flip := false }

/-- `Manipulation::all`: the 8 manipulations in their fixed order. -/
def Manipulation.all : List Manipulation := (List.range 8).map Manipulation.new

/-- `Manipulation::do_rot`; entry formulas of the ndarray slices:
`R1 = slice(s![.., ..;-1]).reversed_axes()` so `R1(M)[i][j] = M[j][n-1-i]`
(counter-clockwise), `R2(M)[i][j] = M[n-1-i][n-1-j]`,
`R3 = slice(s![..;-1, ..]).reversed_axes()` so `R3(M)[i][j] = M[n-1-j][i]`. -/
def Manipulation.do_rot (mp : Manipulation) (M : Mat) : Mat :=
  match mp.rot with
  | .Zero => M
  | .One => build (ncols M) (nrows M) (fun i j => mget M j (ncols M - 1 - i))
  | .Two => build (nrows M) (ncols M)
      (fun i j => mget M (nrows M - 1 - i) (ncols M - 1 - j))
  | .Three => build (ncols M) (nrows M) (fun i j => mget M (nrows M - 1 - j) i)

/-- `Manipulation::do_flip`: mirror the columns (`slice(s![.., ..;-1])`),
so `flip(M)[i][j] = M[i][m-1-j]`. -/
def Manipulation.do_flip (mp : Manipulation) (M : Mat) : Mat :=
  if mp.flip then
    build (nrows M) (ncols M) (fun i j => mget M i (ncols M - 1 - j))
  else M

/-- `Manipulation::on`: flip first, then rotate. -/
def Manipulation.on (mp : Manipulation) (M : Mat) : Mat :=
  mp.do_rot (mp.do_flip M)

/-- An edge fingerprint (`struct EdgePattern`, an `i32` accumulator). -/
structure EdgePattern where
  bits : Nat
deriving DecidableEq, Repr

/-- `EdgePattern::from_edge`: fold the cells MSB-first into the `i32`
accumulator (`(bits << 1) | bit`).  The shift silently discards bits pushed
past position 31, so the accumulator is the low 32 bits of the fold: for bit
cells, `(bits * 2 + elem) % 2 ^ 32` at every step. -/
def EdgePattern.fromEdge (edge : List Nat) : EdgePattern :=
  { bits := edge.foldl (fun bits elem => (bits * 2 + elem) % 2 ^ 32) 0 }

/-- The border sequence of side `d`, read in the fixed direction used by
`EdgePattern::from_matrix`: N/S rows left-to-right, E/W columns
top-to-bottom. -/
def borderSeq (d : Direction) (M : Mat) : List Nat :=
  match d with
  | .N => (List.range (ncols M)).map (fun j => mget M 0 j)
  | .E => (List.range (nrows M)).map (fun i => mget M i (ncols M - 1))
  | .S => (List.range (ncols M)).map (fun j => mget M (nrows M - 1) j)
  | .W => (List.range (nrows M)).map (fun i => mget M i 0)

/-- `EdgePattern::from_matrix`. -/
def EdgePattern.fromMatrix (d : Direction) (M : Mat) : EdgePattern :=
  EdgePattern.fromEdge (borderSeq d M)

/-- `struct EdgeKey`. -/
structure EdgeKey where
  direction : Direction
  pattern : EdgePattern
deriving DecidableEq, Repr

/-- `EdgeKey::from_matrix`. -/
def EdgeKey.fromMatrix (d : Direction) (M : Mat) : EdgeKey :=
  { direction := d, pattern := EdgePattern.fromMatrix d M }

/-- `EdgeKey::opposing`: same pattern, opposite direction. -/
def EdgeKey.opposing (k : EdgeKey) : EdgeKey :=
  { direction := opposite_direction k.direction, pattern := k.pattern }

/-- `edge_match(candidate, neighbour_direction, neighbour)`: the neighbour
sits on side `neighbour_direction` of the candidate; its edge key on the
facing side, turned around by `opposing`, must equal the candidate's key. -/
def edge_match (candidate : Mat) (neighbour_direction : Direction)
    (neighbour : Mat) : Bool :=
  let candidate_edge_key := EdgeKey.fromMatrix neighbour_direction candidate
  let neighbour_edge_key :=
    EdgeKey.fromMatrix (opposite_direction neighbour_direction) neighbour
  neighbour_edge_key.opposing == candidate_edge_key

/-- `struct Tile`. -/
structure Tile where
  id : TileId
  d : Mat
deriving DecidableEq, Repr

/-- `Tile::manipulated`. -/
def Tile.manipulated (t : Tile) (how : Manipulation) : Mat := how.on t.d

/-- Association-list lookup (embedding of `HashMap::get`): the value stored
under the most recently inserted occurrence of the key. -/
def alookup {α β : Type} [DecidableEq α] (l : List (α × β)) (k : α) :
    Option β :=
  ((l.find? (fun p => p.1 = k)).map (fun p => p.2))

/-- `struct TileIndexEntry`. -/
structure TileIndexEntry where
  tile_id : TileId
  manipulation : Manipulation
deriving DecidableEq, Repr

/-- `struct ExposedEdge`. -/
structure ExposedEdge where
  edge_pattern : EdgePattern
  pos : Position
  direction : Direction
deriving DecidableEq, Repr

/-- `struct TileLocationSolution`; the two hash maps become association
lists (insertion at the front). -/
structure TileLocationSolution where
  tile_to_position : List (TileId × (Position × Manipulation))
  position_to_tile : List (Position × TileId)
  exposed_edges : List ExposedEdge
deriving DecidableEq, Repr

namespace TileLocationSolution

/-- `TileLocationSolution::new`. -/
def new : TileLocationSolution :=
  { tile_to_position := [], position_to_tile := [], exposed_edges := [] }

/-- `TileLocationSolution::occupied`. -/
def occupied (sol : TileLocationSolution) (pos : Position) : Bool :=
  (alookup sol.position_to_tile pos).isSome

/-- `TileLocationSolution::get_position_of_tile`. -/
def get_position_of_tile (sol : TileLocationSolution) (tile_id : TileId) :
    Option (Position × Manipulation) :=
  alookup sol.tile_to_position tile_id

/-- `TileLocationSolution::get_tile_at_position` (the source panics when the
two maps disagree; embedded as `none`). -/
def get_tile_at_position (sol : TileLocationSolution) (pos : Position) :
    Option (TileId × Manipulation) :=
  match alookup sol.position_to_tile pos with
  | none => none
  | some tid =>
    match sol.get_position_of_tile tid with
    | some (_, manip) => some (tid, manip)
    | none => none

/-- `TileLocationSolution::len`. -/
def len (sol : TileLocationSolution) : Nat := sol.tile_to_position.length

end TileLocationSolution

/-- `get_neighbour`. -/
def get_neighbour (pos : Position) (edge : Direction) : Position :=
  match edge with
  | .N => { pos with y := pos.y + 1 }
  | .E => { pos with x := pos.x + 1 }
  | .S => { pos with y := pos.y - 1 }
  | .W => { pos with x := pos.x - 1 }

/-- `TileLocationSolution::place_tile`: insert into both maps, prune exposed
edges whose neighbouring position is now occupied, then push the new tile's
edges that face unoccupied positions (in N,E,S,W order). -/
def TileLocationSolution.place_tile (sol : TileLocationSolution) (tile : Tile)
    (how : Manipulation) (pos : Position) : TileLocationSolution :=
  let s1 : TileLocationSolution :=
    { tile_to_position := (tile.id, (pos, how)) :: sol.tile_to_position
      position_to_tile := (pos, tile.id) :: sol.position_to_tile
      exposed_edges := sol.exposed_edges }
  let pruned := s1.exposed_edges.filter (fun exposure =>
    !(s1.occupied (get_neighbour exposure.pos exposure.direction)))
  let tile_bits := tile.manipulated how
  let fresh := Direction.all.filterMap (fun d =>
    if s1.occupied (get_neighbour pos d) then none
    else some { edge_pattern := EdgePattern.fromMatrix d tile_bits
                pos := pos
                direction := d : ExposedEdge })
  { s1 with exposed_edges := pruned ++ fresh }

/-- `get_edge_keys`. -/
def get_edge_keys (m : Mat) : List EdgeKey :=
  [EdgeKey.fromMatrix .N m, EdgeKey.fromMatrix .E m,
   EdgeKey.fromMatrix .S m, EdgeKey.fromMatrix .W m]

/-- The edge index (`HashMap<EdgePattern, Vec<TileIndexEntry>>`), embedded
as an association list whose buckets grow by appending. -/
abbrev EdgeIndex := List (EdgePattern × List TileIndexEntry)

/-- Append `entry` to the bucket for `key` (`result.entry(key).or_insert_with(Vec::new).push(entry)`). -/
def indexPush (ix : EdgeIndex) (key : EdgePattern) (entry : TileIndexEntry) :
    EdgeIndex :=
  match alookup ix key with
  | none => (key, [entry]) :: ix
  | some bucket =>
    ix.map (fun p => if p.1 = key then (p.1, bucket ++ [entry]) else p)

/-- `make_tile_index`, inner loop over one tile's 8 variants.  `seen` holds
the de-duplication keys of the variants already visited for this tile (the
source uses the flattened digit string of the matrix, which separates two
matrices of equal shape exactly when the matrices differ; we keep the
flattened cell list).  The source's
`assert_eq!(seen_keys.get(&mk).unwrap().len(), 1)` fires — embedded as
`none` — when a manipulated matrix repeats. -/
def indexOneTile (t : Tile) : List Manipulation → List Mat → EdgeIndex →
    Option EdgeIndex
  | [], _, ix => some ix
  | manip :: rest, seen, ix =>
    let v := manip.on t.d
    if seen.contains v then none
    else
      let ix' := (get_edge_keys v).foldl
        (fun acc ek => indexPush acc ek.pattern
          { tile_id := t.id, manipulation := manip }) ix
      indexOneTile t rest (v :: seen) ix'

/-- `make_tile_index`: for every tile and every one of its 8 manipulations,
record the 4 edge patterns; fails (`none`) when some tile is symmetric under
a nonidentity manipulation (the uniqueness assertion). -/
def make_tile_index (tiles : List (TileId × Tile)) : Option EdgeIndex :=
  tiles.foldlM (fun ix (p : TileId × Tile) =>
    indexOneTile p.2 Manipulation.all [] ix) []

/-- `candidate_fits_neighbours`: check all four sides of the candidate's
manipulated matrix against every already-placed neighbour of
`proposed_pos`.  The source's `.expect` on catalog lookups is embedded by
treating a missing tile as a non-fit (those lookups never fail in any run
reachable from a consistent catalog). -/
def candidate_fits_neighbours (cand : TileIndexEntry) (proposed_pos : Position)
    (tiles : List (TileId × Tile)) (solution : TileLocationSolution) : Bool :=
  match alookup tiles cand.tile_id with
  | none => false
  | some candidate_tile =>
    Direction.all.all (fun neighbour_direction =>
      let neighbour_pos := get_neighbour proposed_pos neighbour_direction
      match solution.get_tile_at_position neighbour_pos with
      | none => true
      | some (neighbour_id, neighbour_manipulation) =>
        match alookup tiles neighbour_id with
        | none => false
        | some neighbour =>
          edge_match (candidate_tile.manipulated cand.manipulation)
            neighbour_direction
            (neighbour.manipulated neighbour_manipulation))

/-- Append `m` to the bucket for `tid` in the per-position candidate map
(`result.entry(tile_id).or_insert_with(Vec::new).push(manip)`). -/
def candPush (groups : List (TileId × List Manipulation)) (tid : TileId)
    (m : Manipulation) : List (TileId × List Manipulation) :=
  match alookup groups tid with
  | none => groups ++ [(tid, [m])]
  | some bucket =>
    groups.map (fun p => if p.1 = tid then (p.1, bucket ++ [m]) else p)

/-- `get_candidates`: look the exposed edge's pattern up in the index, drop
already-placed tiles, keep entries that fit every placed neighbour, grouped
by tile id.  `none` embeds the fatal branches (position unexpectedly
occupied, `expect("edge missing from index")`). -/
def get_candidates (tiles : List (TileId × Tile)) (ix : EdgeIndex)
    (solution : TileLocationSolution) (exposed_edge : ExposedEdge) :
    Option (List (TileId × List Manipulation)) :=
  let empty_pos := get_neighbour exposed_edge.pos exposed_edge.direction
  if (solution.get_tile_at_position empty_pos).isSome then none
  else
    match alookup ix exposed_edge.edge_pattern with
    | none => none
    | some bucket =>
      some (bucket.foldl (fun result cand =>
        if (solution.get_position_of_tile cand.tile_id).isSome then result
        else if candidate_fits_neighbours cand empty_pos tiles solution then
          candPush result cand.tile_id cand.manipulation
        else result) [])

/-- `place`: move a tile from the todo set into the solution.  `none` embeds
the fatal branches (tile missing from the catalog, already placed, or absent
from `todo`). -/
def place (tile_id : TileId) (how : Manipulation) (pos : Position)
    (tiles : List (TileId × Tile)) (solution : TileLocationSolution)
    (todo : List TileId) :
    Option (TileLocationSolution × List TileId) :=
  match alookup tiles tile_id with
  | none => none
  | some tile =>
    if (solution.get_position_of_tile tile_id).isSome then none
    else if todo.contains tile_id then
      some (solution.place_tile tile how pos, todo.filter (fun t => !(t == tile_id)))
    else none

/-- The decision `solve1x` takes at a single exposed edge:
`none` = fatal, `some none` = defer / keep scanning, `some (some (t, m))` =
commit this placement.  Mirrors the source's branch structure: more than one
candidate tile defers; a single tile with exactly one manipulation commits;
a single tile with several manipulations defers. -/
def edgeDecision (tiles : List (TileId × Tile)) (ix : EdgeIndex)
    (solution : TileLocationSolution) (exposed_edge : ExposedEdge) :
    Option (Option (TileId × Manipulation)) :=
  match get_candidates tiles ix solution exposed_edge with
  | none => none
  | some candidates =>
    if candidates.length > 1 then some none
    else
      match candidates with
      | [] => some none
      | (tile_id, manipulations) :: _ =>
        match manipulations with
        | [m] => some (some (tile_id, m))
        | _ => some none

/-- The frontier scan of `solve1x`: take the first edge whose decision is a
commit; fall through deferred edges; reaching the end of the scan is the
fatal `"solve1x: failed to make any progress"` panic (`none`). -/
def scanFrontier (tiles : List (TileId × Tile)) (ix : EdgeIndex)
    (solution : TileLocationSolution) :
    List ExposedEdge → Option (TileId × Manipulation × Position)
  | [] => none
  | e :: rest =>
    match edgeDecision tiles ix solution e with
    | none => none
    | some (some (t, m)) =>
      some (t, m, get_neighbour e.pos e.direction)
    | some none => scanFrontier tiles ix solution rest

/-- `solve1x`: scan the frontier, make the unique forced placement, and
return (the source `return`s so the caller restarts the scan).  `none`
embeds every fatal path, including the no-progress panic. -/
def solve1x (tiles : List (TileId × Tile)) (ix : EdgeIndex)
    (solution : TileLocationSolution) (todo : List TileId) :
    Option (TileLocationSolution × List TileId) :=
  if solution.len = tiles.length then none
  else
    match scanFrontier tiles ix solution solution.exposed_edges with
    | none => none
    | some (t, m, pos) => place t m pos tiles solution todo

/-- The `while !todo.is_empty()` loop of `solve1`, with explicit fuel; the
source's `if after >= before { panic! }` progress check is embedded as
`none`. -/
def solve1Loop (tiles : List (TileId × Tile)) (ix : EdgeIndex) :
    Nat → TileLocationSolution → List TileId →
    Option TileLocationSolution
  | _, solution, [] => some solution
  | 0, _, _ :: _ => none
  | fuel + 1, solution, todo@(_ :: _) =>
    match solve1x tiles ix solution todo with
    | none => none
    | some (solution', todo') =>
      if todo.length ≤ todo'.length then none
      else solve1Loop tiles ix fuel solution' todo'

/-- Minimum tile id of the catalog (`tiles.keys().min()`). -/
def minKey (tiles : List (TileId × Tile)) : Option TileId :=
  match tiles.map (fun p => p.1.val) with
  | [] => none
  | v :: vs => some { val := vs.foldl min v }

/-- `solve1`: place the lowest-id tile at the origin with the caller's
initial manipulation, then run placement scans to exhaustion. -/
def solve1 (tiles : List (TileId × Tile)) (ix : EdgeIndex)
    (initial_manip : Manipulation) : Option TileLocationSolution :=
  let todo := tiles.map (fun p => p.1)
  match minKey tiles with
  | none => some TileLocationSolution.new
  | some initial =>
    match place initial initial_manip { x := 0, y := 0 } tiles
        TileLocationSolution.new todo with
    | none => none
    | some (solution, todo') => solve1Loop tiles ix todo'.length solution todo'

/-- Option-valued map over a list, failing if any element fails. -/
def optMap {α β : Type} (f : α → Option β) : List α → Option (List β)
  | [] => some []
  | a :: rest =>
    match f a with
    | none => none
    | some b =>
      match optMap f rest with
      | none => none
      | some bs => some (b :: bs)

/-- `nessie`: the fixed 3×20 sea-monster mask. -/
def nessie : Mat :=
  [[0, 0, 0, 0, 0, 0, 0, 0, 0, 0, 0, 0, 0, 0, 0, 0, 0, 0, 1, 0],
   [1, 0, 0, 0, 0, 1, 1, 0, 0, 0, 0, 1, 1, 0, 0, 0, 0, 1, 1, 1],
   [0, 1, 0, 0, 1, 0, 0, 1, 0, 0, 1, 0, 0, 1, 0, 0, 1, 0, 0, 0]]

/-- One cell of `mask_match`: `(m_elem == 0) || (w_elem != 0)`. -/
def mask_cell_ok (w_elem m_elem : Nat) : Bool :=
  (m_elem == 0) || !(w_elem == 0)

/-- `mask_match`: every cell where the mask is nonzero must be nonzero in
the window. -/
def mask_match_at (haystack mask : Mat) (r c : Nat) : Bool :=
  (List.range (nrows mask)).all (fun a =>
    (List.range (ncols mask)).all (fun b =>
      mask_cell_ok (mget haystack (r + a) (c + b)) (mget mask a b)))

/-- `find_image_locations`: enumerate the windows row-major (rows
`0 .. H-mh`, columns `0 .. W-mw` of top-left corners); a matching window at
linear window index `i` is reported as `(i % haystack_width, i / haystack_width)`
exactly as in the source (which divides the window index by the *bitmap*
width, not the window-count width). -/
def find_image_locations (haystack mask : Mat) : List (Int × Int) :=
  let mh := nrows mask
  let mw := ncols mask
  let rowWindows := ncols haystack + 1 - mw
  (List.range (nrows haystack + 1 - mh)).flatMap (fun r =>
    (List.range rowWindows).filterMap (fun c =>
      if mask_match_at haystack mask r c then
        let i := r * rowWindows + c
        some (((i % ncols haystack : Nat) : Int),
              ((i / ncols haystack : Nat) : Int))
      else none))

/-- `count_ones`. -/
def count_ones (m : Mat) : Nat :=
  (m.flatten.filter (fun x => x == 1)).length

/-- `measure_roughness` (usize subtraction; truncated at zero like `Nat`
subtraction — the source would abort on underflow, which cannot happen for
genuine occurrence lists). -/
def measure_roughness (bitmap : Mat) (locations : List (Int × Int))
    (mask : Mat) : Nat :=
  count_ones bitmap - locations.length * count_ones mask

/-- `decode_ascii_tile`: read the flat character buffer at
`(width+1)*r + c`; `'#'` is 1, `'.'` is 0, anything else is the error
marker 2 (out-of-range reads cannot happen for well-formed records; they
are mapped to the error marker as well). -/
def decode_ascii_tile (r c width : Nat) (s : List Char) : Nat :=
  match s.getD ((width + 1) * r + c) ' ' with
  | '#' => 1
  | '.' => 0
  | _ => 2

/-- Split a character list at every occurrence of `sep`
(`str::split(char)` semantics: `n` separators produce `n+1` pieces). -/
def splitOnChar (sep : Char) : List Char → List (List Char)
  | [] => [[]]
  | c :: rest =>
    match splitOnChar sep rest with
    | [] => [[c]]
    | h :: t => if c = sep then [] :: h :: t else (c :: h) :: t

/-- Split a character list at every (leftmost, non-overlapping) occurrence
of the two-character separator `"\n\n"` (`str::split("\n\n")` semantics). -/
def splitRecords : List Char → List (List Char)
  | [] => [[]]
  | '\n' :: '\n' :: rest => [] :: splitRecords rest
  | c :: rest =>
    match splitRecords rest with
    | [] => [[c]]
    | h :: t => (c :: h) :: t

/-- `str::trim`: drop leading and trailing whitespace. -/
def trimChars (l : List Char) : List Char :=
  ((l.dropWhile Char.isWhitespace).reverse.dropWhile Char.isWhitespace).reverse

/-- The title regex `^Tile ([0-9]*):$` plus the integer parse of the
capture (`none` when the line has the wrong shape or the capture is empty,
i.e. the `ParseIntError` arm). -/
def parseTileTitle (line : List Char) : Option TileId :=
  if ['T', 'i', 'l', 'e', ' '].isPrefixOf line && line.getLast? = some ':' then
    let mid := (line.drop 5).dropLast
    if mid ≠ [] && mid.all Char.isDigit then
      some { val := (mid.foldl (fun a c => a * 10 + (c.toNat - 48)) 0 : Nat) }
    else none
  else none

/-- `Tile::from_string`: parse one record (title line, then the bitmap
rows).  Width is taken from the second line, height from the line count;
the tile must be square and contain only `'#'`/`'.'`. -/
def Tile.from_string (s : List Char) : Option Tile :=
  let lines := splitOnChar '\n' s
  if lines = [] then none
  else
    match parseTileTitle (lines.getD 0 []) with
    | none => none
    | some id =>
      match lines.get? 1 with
      | none => none
      | some line1 =>
        let width := line1.length
        let height := lines.length - 1
        if width ≠ height then none
        else
          let tiledata := s.drop ((lines.getD 0 []).length + 1)
          let d := build height width
            (fun r c => decode_ascii_tile r c width tiledata)
          if d.flatten.any (fun x => x == 2) then none
          else some { id := id, d := d }

/-- The per-record stage of `read_tiles`: parse each record and collect the
`(id, tile)` pairs (any failure is fatal). -/
def read_tiles_records (records : List (List Char)) :
    Option (List (TileId × Tile)) :=
  optMap (fun s =>
    match Tile.from_string s with
    | none => none
    | some t => some (t.id, t)) records

/-- `read_tiles`: trim, split on blank lines, trim each record, parse. -/
def read_tiles (s : String) : Option (List (TileId × Tile)) :=
  read_tiles_records ((splitRecords (trimChars s.toList)).map trimChars)

/-- All entries of the matrix are bits. -/
def IsZeroOne (M : Mat) : Prop := ∀ row ∈ M, ∀ x ∈ row, x = 0 ∨ x = 1

instance (M : Mat) : Decidable (IsZeroOne M) := by
  unfold IsZeroOne; infer_instance

/-- A tile that is symmetric under every manipulation (all cells zero). -/
def symmetricTile : Tile := { id := { val := 9 }, d := [[0,0,0],[0,0,0],[0,0,0]] }

/-- Two asymmetric 3×3 tiles whose 8 manipulated variants are pairwise
distinct; tile 2 fits uniquely to the east of tile 1. -/
def tileA : Tile := { id := { val := 1 }, d := [[0,0,1],[1,0,1],[0,1,0]] }

def tileB : Tile := { id := { val := 2 }, d := [[1,0,0],[1,0,0],[0,0,1]] }

/-- The two-tile catalog used as a concrete fixture. -/
def catalogAB : List (TileId × Tile) := [(tileA.id, tileA), (tileB.id, tileB)]

/-- An input whose two records hold a 2×2 tile and a 3×3 tile. -/
def mixedSizeInput : String := "Tile 1:\n..\n..\n\nTile 2:\n...\n...\n..."

/-- Solutions reachable from the empty solution by `place_tile` calls that
place a catalog tile that is not yet placed at an unoccupied position
(exactly the situations in which the source calls `place_tile`, guarded by
its assertions). -/
inductive Reached (tiles : List (TileId × Tile)) : TileLocationSolution → Prop
  | base : Reached tiles TileLocationSolution.new
  | step {sol : TileLocationSolution} (t : Tile) (how : Manipulation)
      (pos : Position) :
      Reached tiles sol →
      alookup tiles t.id = some t →
      sol.get_position_of_tile t.id = none →
      sol.occupied pos = false →
      Reached tiles (sol.place_tile t how pos)

/-- The frontier characterisation: `e` describes the side `e.direction` of
the tile placed at `e.pos`, that side faces an unoccupied position, and the
fingerprint is taken from the placed tile's manipulated matrix. -/
def FrontierSpec (tiles : List (TileId × Tile)) (sol : TileLocationSolution)
    (e : ExposedEdge) : Prop :=
  ∃ tid how t, alookup sol.position_to_tile e.pos = some tid
    ∧ alookup sol.tile_to_position tid = some (e.pos, how)
    ∧ alookup tiles tid = some t
    ∧ sol.occupied (get_neighbour e.pos e.direction) = false
    ∧ e.edge_pattern = EdgePattern.fromMatrix e.direction (t.manipulated how)

/-- The C3 invariant: the two maps are mutual inverses, each key occurs at
most once, and the exposed edges are exactly the frontier. -/
def SolutionInv (tiles : List (TileId × Tile))
    (sol : TileLocationSolution) : Prop :=
  (∀ tid p m, alookup sol.tile_to_position tid = some (p, m) →
      alookup sol.position_to_tile p = some tid)
  ∧ (∀ p tid, alookup sol.position_to_tile p = some tid →
      ∃ m, alookup sol.tile_to_position tid = some (p, m))
  ∧ (sol.tile_to_position.map Prod.fst).Nodup
  ∧ (sol.position_to_tile.map Prod.fst).Nodup
  ∧ (∀ e : ExposedEdge, e ∈ sol.exposed_edges ↔ FrontierSpec tiles sol e)

/-- The surviving (tile id, manipulation) pairs at an exposed edge: index
entries under the edge's fingerprint whose tile is unplaced and whose
manipulated matrix validates against every already-placed neighbour of the
target position (the pairs `get_candidates` groups by tile id). -/
def survivors (tiles : List (TileId × Tile)) (ix : EdgeIndex)
    (solution : TileLocationSolution) (exposed_edge : ExposedEdge) :
    List (TileId × Manipulation) :=
  let empty_pos := get_neighbour exposed_edge.pos exposed_edge.direction
  match alookup ix exposed_edge.edge_pattern with
  | none => []
  | some bucket =>
    (bucket.filter (fun cand =>
      !(solution.get_position_of_tile cand.tile_id).isSome &&
      candidate_fits_neighbours cand empty_pos tiles solution)).map
      (fun cand => (cand.tile_id, cand.manipulation))

/-- Fold the per-position candidate grouping over a list of surviving
pairs. -/
def candGroups (ps : List (TileId × Manipulation)) :
    List (TileId × List Manipulation) :=
  ps.foldl (fun g p => candPush g p.1 p.2) []

/-- Total number of manipulations across the candidate groups. -/
def groupSum (g : List (TileId × List Manipulation)) : Nat :=
  (g.map (fun p => p.2.length)).sum

/-- The index of the two-tile fixture catalog. -/
def ixAB : EdgeIndex := (make_tile_index catalogAB).getD []

/-- The fixture solution after seeding tile 1 at the origin. -/
def solA : TileLocationSolution :=
  TileLocationSolution.new.place_tile tileA Manipulation.noop
    { x := 0, y := 0 }

/-- A 33×33 bit matrix whose north border is a 1 followed by 32 zeros. -/
def wideA : Mat :=
  (1 :: List.replicate 32 0) :: List.replicate 32 (List.replicate 33 0)

/-- The all-zero 33×33 matrix. -/
def wideB : Mat := List.replicate 33 (List.replicate 33 0)

/-! ### Basic matrix lemmas -/

theorem nrows_build (r c : Nat) (f : Nat → Nat → Nat) :
    nrows (build r c f) = r := by
  simp [nrows, build]

theorem ncols_build_sq (n : Nat) (f : Nat → Nat → Nat) :
    ncols (build n n f) = n := by
  cases n with
  | zero => simp [ncols, build]
  | succ k => simp [ncols, build, List.range_succ_eq_map]

theorem build_isSquare (n : Nat) (f : Nat → Nat → Nat) :
    IsSquare (build n n f) n := by
  constructor
  · simp [build]
  · intro row hrow
    simp only [build, List.mem_map] at hrow
    obtain ⟨i, _, rfl⟩ := hrow
    simp

theorem square_nrows {M : Mat} {n : Nat} (h : IsSquare M n) : nrows M = n :=
  h.1

theorem square_ncols {M : Mat} {n : Nat} (h : IsSquare M n) : ncols M = n := by
  cases M with
  | nil => simpa [ncols] using h.1
  | cons r rs =>
    have := h.2 r (by simp)
    simpa [ncols] using this

theorem mget_build {r c i j : Nat} {f : Nat → Nat → Nat} (hi : i < r)
    (hj : j < c) : mget (build r c f) i j = f i j := by
  simp [mget, build, List.getD_eq_getElem?_getD, List.getElem?_map,
    List.getElem?_range, hi, hj]

theorem mget_getD {M : Mat} {i j : Nat} (h : i < M.length) :
    mget M i j = (M[i]).getD j 0 := by
  simp [mget, List.getD_eq_getElem?_getD, List.getElem?_eq_getElem h]

theorem build_congr {r c : Nat} {f g : Nat → Nat → Nat}
    (h : ∀ i j, i < r → j < c → f i j = g i j) : build r c f = build r c g := by
  unfold build
  apply List.map_congr_left
  intro i hi
  apply List.map_congr_left
  intro j hj
  exact h i j (List.mem_range.mp hi) (List.mem_range.mp hj)

theorem map_range_getD {l : List Nat} {n : Nat} (h : l.length = n) :
    (List.range n).map (fun j => l.getD j 0) = l := by
  apply List.ext_getElem
  · simp [h]
  · intro i h1 h2
    simp only [List.getElem_map, List.getElem_range]
    rw [List.getD_eq_getElem?_getD, List.getElem?_eq_getElem h2]
    simp

theorem mat_eta {M : Mat} {n : Nat} (h : IsSquare M n) :
    build n n (fun i j => mget M i j) = M := by
  apply List.ext_getElem
  · simp [build, h.1]
  · intro i h1 h2
    simp only [build, List.getElem_map, List.getElem_range]
    have hrow : M[i] ∈ M := List.getElem_mem h2
    have hlen : (M[i]).length = n := h.2 _ hrow
    have hg : ∀ j, mget M i j = (M[i]).getD j 0 := fun j => mget_getD h2
    simp only [hg]
    exact map_range_getD hlen

/-- Entry formulas for the 8 manipulations on a square matrix: each
manipulation materialises to a `build` over a coordinate permutation. -/
theorem on_entry_R0FN {M : Mat} {n : Nat} (h : IsSquare M n) :
    Manipulation.on ⟨.Zero, false⟩ M = build n n (fun i j => mget M i j) := by
  show M = _
  exact (mat_eta h).symm

theorem on_entry_R1FN {M : Mat} {n : Nat} (h : IsSquare M n) :
    Manipulation.on ⟨.One, false⟩ M =
      build n n (fun i j => mget M j (n - 1 - i)) := by
  have e1 : Manipulation.on ⟨.One, false⟩ M =
      build (ncols M) (nrows M) (fun i j => mget M j (ncols M - 1 - i)) := rfl
  rw [e1, square_nrows h, square_ncols h]

theorem on_entry_R2FN {M : Mat} {n : Nat} (h : IsSquare M n) :
    Manipulation.on ⟨.Two, false⟩ M =
      build n n (fun i j => mget M (n - 1 - i) (n - 1 - j)) := by
  have e1 : Manipulation.on ⟨.Two, false⟩ M =
      build (nrows M) (ncols M)
        (fun i j => mget M (nrows M - 1 - i) (ncols M - 1 - j)) := rfl
  rw [e1, square_nrows h, square_ncols h]

theorem on_entry_R3FN {M : Mat} {n : Nat} (h : IsSquare M n) :
    Manipulation.on ⟨.Three, false⟩ M =
      build n n (fun i j => mget M (n - 1 - j) i) := by
  have e1 : Manipulation.on ⟨.Three, false⟩ M =
      build (ncols M) (nrows M) (fun i j => mget M (nrows M - 1 - j) i) := rfl
  rw [e1, square_nrows h, square_ncols h]

theorem on_entry_R0FY {M : Mat} {n : Nat} (h : IsSquare M n) :
    Manipulation.on ⟨.Zero, true⟩ M =
      build n n (fun i j => mget M i (n - 1 - j)) := by
  have e1 : Manipulation.on ⟨.Zero, true⟩ M =
      build (nrows M) (ncols M) (fun i j => mget M i (ncols M - 1 - j)) := rfl
  rw [e1, square_nrows h, square_ncols h]

theorem on_entry_R1FY {M : Mat} {n : Nat} (h : IsSquare M n) :
    Manipulation.on ⟨.One, true⟩ M = build n n (fun i j => mget M j i) := by
  have e1 : Manipulation.on ⟨.One, true⟩ M =
      Manipulation.do_rot ⟨.One, true⟩
        (build (nrows M) (ncols M) (fun i j => mget M i (ncols M - 1 - j))) :=
    rfl
  rw [e1, square_nrows h, square_ncols h]
  show build (ncols (build n n _)) (nrows (build n n _)) _ = _
  rw [nrows_build, ncols_build_sq]
  apply build_congr
  intro i j hi hj
  rw [mget_build hj (by omega)]
  congr 1
  omega

theorem on_entry_R2FY {M : Mat} {n : Nat} (h : IsSquare M n) :
    Manipulation.on ⟨.Two, true⟩ M =
      build n n (fun i j => mget M (n - 1 - i) j) := by
  have e1 : Manipulation.on ⟨.Two, true⟩ M =
      Manipulation.do_rot ⟨.Two, true⟩
        (build (nrows M) (ncols M) (fun i j => mget M i (ncols M - 1 - j))) :=
    rfl
  rw [e1, square_nrows h, square_ncols h]
  show build (nrows (build n n _)) (ncols (build n n _)) _ = _
  rw [nrows_build, ncols_build_sq]
  apply build_congr
  intro i j hi hj
  rw [mget_build (by omega) (by omega)]
  congr 1
  omega

theorem on_entry_R3FY {M : Mat} {n : Nat} (h : IsSquare M n) :
    Manipulation.on ⟨.Three, true⟩ M =
      build n n (fun i j => mget M (n - 1 - j) (n - 1 - i)) := by
  have e1 : Manipulation.on ⟨.Three, true⟩ M =
      Manipulation.do_rot ⟨.Three, true⟩
        (build (nrows M) (ncols M) (fun i j => mget M i (ncols M - 1 - j))) :=
    rfl
  rw [e1, square_nrows h, square_ncols h]
  show build (ncols (build n n _)) (nrows (build n n _)) _ = _
  rw [nrows_build, ncols_build_sq]
  apply build_congr
  intro i j hi hj
  rw [mget_build (by omega) hi]

/-- C9: for every one of the 8 manipulations `m` and every square matrix
`M`, some manipulation `m'` among the 8 enumerated by `Manipulation.all`
undoes it: `m'.on (m.on M) = M`. -/
theorem claim_C9_manipulation_inverses (mp : Manipulation)
    (hmp : mp ∈ Manipulation.all) (M : Mat) (n : Nat) (h : IsSquare M n) :
    ∃ mp' ∈ Manipulation.all, mp'.on (mp.on M) = M := by
  clear hmp
  obtain ⟨rot, flip⟩ := mp
  cases rot <;> cases flip
  case Zero.false =>
    exact ⟨⟨.Zero, false⟩, by decide, rfl⟩
  case One.false =>
    refine ⟨⟨.Three, false⟩, by decide, ?_⟩
    rw [on_entry_R1FN h, on_entry_R3FN (build_isSquare n _)]
    refine Eq.trans ?_ (mat_eta h)
    apply build_congr
    intro i j hi hj
    rw [mget_build (by omega) hi]
    have h2 : n - 1 - (n - 1 - j) = j := by omega
    rw [h2]
  case Two.false =>
    refine ⟨⟨.Two, false⟩, by decide, ?_⟩
    rw [on_entry_R2FN h, on_entry_R2FN (build_isSquare n _)]
    refine Eq.trans ?_ (mat_eta h)
    apply build_congr
    intro i j hi hj
    rw [mget_build (by omega) (by omega)]
    have h1 : n - 1 - (n - 1 - i) = i := by omega
    have h2 : n - 1 - (n - 1 - j) = j := by omega
    rw [h1, h2]
  case Three.false =>
    refine ⟨⟨.One, false⟩, by decide, ?_⟩
    rw [on_entry_R3FN h, on_entry_R1FN (build_isSquare n _)]
    refine Eq.trans ?_ (mat_eta h)
    apply build_congr
    intro i j hi hj
    rw [mget_build hj (by omega)]
    have h1 : n - 1 - (n - 1 - i) = i := by omega
    rw [h1]
  case Zero.true =>
    refine ⟨⟨.Zero, true⟩, by decide, ?_⟩
    rw [on_entry_R0FY h, on_entry_R0FY (build_isSquare n _)]
    refine Eq.trans ?_ (mat_eta h)
    apply build_congr
    intro i j hi hj
    rw [mget_build hi (by omega)]
    have h2 : n - 1 - (n - 1 - j) = j := by omega
    rw [h2]
  case One.true =>
    refine ⟨⟨.One, true⟩, by decide, ?_⟩
    rw [on_entry_R1FY h, on_entry_R1FY (build_isSquare n _)]
    refine Eq.trans ?_ (mat_eta h)
    apply build_congr
    intro i j hi hj
    rw [mget_build hj hi]
  case Two.true =>
    refine ⟨⟨.Two, true⟩, by decide, ?_⟩
    rw [on_entry_R2FY h, on_entry_R2FY (build_isSquare n _)]
    refine Eq.trans ?_ (mat_eta h)
    apply build_congr
    intro i j hi hj
    rw [mget_build (by omega) hj]
    have h1 : n - 1 - (n - 1 - i) = i := by omega
    rw [h1]
  case Three.true =>
    refine ⟨⟨.Three, true⟩, by decide, ?_⟩
    rw [on_entry_R3FY h, on_entry_R3FY (build_isSquare n _)]
    refine Eq.trans ?_ (mat_eta h)
    apply build_congr
    intro i j hi hj
    rw [mget_build (by omega) (by omega)]
    have h1 : n - 1 - (n - 1 - i) = i := by omega
    have h2 : n - 1 - (n - 1 - j) = j := by omega
    rw [h1, h2]

/-- C9 witness: the inverse theorem applied to the counter-clockwise
quarter-turn on a concrete 2×2 matrix. -/
theorem claim_C9_witness :
    ∃ mp' ∈ Manipulation.all,
      mp'.on ((⟨.One, false⟩ : Manipulation).on [[1, 0], [0, 0]]) =
        [[1, 0], [0, 0]] :=
  claim_C9_manipulation_inverses ⟨.One, false⟩ (by decide) [[1, 0], [0, 0]] 2
    (by decide)

/-! ### The edge match rule (C2) -/

theorem opposite_opposite (d : Direction) :
    opposite_direction (opposite_direction d) = d := by
  cases d <;> rfl

theorem mget_zeroOne {M : Mat} (h : IsZeroOne M) (i j : Nat) :
    mget M i j = 0 ∨ mget M i j = 1 := by
  by_cases hi : i < M.length
  · rw [mget_getD hi]
    by_cases hj : j < (M[i]).length
    · rw [List.getD_eq_getElem?_getD, List.getElem?_eq_getElem hj,
        Option.getD_some]
      exact h _ (List.getElem_mem hi) _ (List.getElem_mem hj)
    · rw [List.getD_eq_getElem?_getD, List.getElem?_eq_none (by omega),
        Option.getD_none]
      exact Or.inl rfl
  · have hrow : M.getD i [] = [] := by
      rw [List.getD_eq_getElem?_getD, List.getElem?_eq_none (by omega)]
      rfl
    unfold mget
    rw [hrow]
    simp

theorem borderSeq_zeroOne {M : Mat} (h : IsZeroOne M) (d : Direction) :
    ∀ x ∈ borderSeq d M, x = 0 ∨ x = 1 := by
  intro x hx
  cases d <;>
    · simp only [borderSeq, List.mem_map] at hx
      obtain ⟨i, _, rfl⟩ := hx
      exact mget_zeroOne h _ _

theorem borderSeq_length {M : Mat} {n : Nat} (h : IsSquare M n)
    (d : Direction) : (borderSeq d M).length = n := by
  cases d <;> simp [borderSeq, square_nrows h, square_ncols h]

theorem foldl_bits_shift (l : List Nat) (a : Nat) :
    l.foldl (fun bits elem => bits * 2 + elem) a =
      a * 2 ^ l.length + l.foldl (fun bits elem => bits * 2 + elem) 0 := by
  induction l generalizing a with
  | nil => simp
  | cons x xs ih =>
    simp only [List.foldl_cons, List.length_cons]
    rw [ih (a * 2 + x), ih (0 * 2 + x)]
    ring

theorem foldl_bits_lt {l : List Nat} (h : ∀ x ∈ l, x = 0 ∨ x = 1) :
    l.foldl (fun bits elem => bits * 2 + elem) 0 < 2 ^ l.length := by
  induction l with
  | nil => simp
  | cons x xs ih =>
    simp only [List.foldl_cons, List.length_cons]
    rw [foldl_bits_shift]
    have hx : x = 0 ∨ x = 1 := h x (by simp)
    have hxs := ih (fun y hy => h y (by simp [hy]))
    have hp : (0 : Nat) < 2 ^ xs.length := Nat.pos_pow_of_pos _ (by omega)
    have h2 : (2 : Nat) ^ (xs.length + 1) = 2 ^ xs.length * 2 :=
      pow_succ 2 xs.length
    rcases hx with rfl | rfl <;> omega

theorem foldl_bits_inj : ∀ (l1 l2 : List Nat), l1.length = l2.length →
    (∀ x ∈ l1, x = 0 ∨ x = 1) → (∀ x ∈ l2, x = 0 ∨ x = 1) →
    l1.foldl (fun bits elem => bits * 2 + elem) 0 =
      l2.foldl (fun bits elem => bits * 2 + elem) 0 →
    l1 = l2 := by
  intro l1
  induction l1 with
  | nil =>
    intro l2 hlen _ _ _
    exact (List.length_eq_zero.mp hlen.symm).symm ▸ rfl
  | cons x xs ih =>
    intro l2 hlen h1 h2 hfold
    cases l2 with
    | nil => simp at hlen
    | cons y ys =>
      simp only [List.length_cons, Nat.succ.injEq] at hlen
      simp only [List.foldl_cons] at hfold
      rw [foldl_bits_shift _ (0 * 2 + x), foldl_bits_shift _ (0 * 2 + y)]
        at hfold
      have hx : x = 0 ∨ x = 1 := h1 x (by simp)
      have hy : y = 0 ∨ y = 1 := h2 y (by simp)
      have hxs : ∀ z ∈ xs, z = 0 ∨ z = 1 := fun z hz => h1 z (by simp [hz])
      have hys : ∀ z ∈ ys, z = 0 ∨ z = 1 := fun z hz => h2 z (by simp [hz])
      have lt1 := foldl_bits_lt hxs
      have lt2 := foldl_bits_lt hys
      rw [hlen] at lt1 hfold
      have hxy : x = y ∧
          xs.foldl (fun bits elem => bits * 2 + elem) 0 =
            ys.foldl (fun bits elem => bits * 2 + elem) 0 := by
        simp only [Nat.zero_mul, Nat.zero_add] at hfold
        rcases hx with rfl | rfl <;> rcases hy with rfl | rfl <;>
          constructor <;> omega
      rw [hxy.1, ih ys (by omega) hxs hys hxy.2]

theorem foldl_bits_mod_eq : ∀ (l : List Nat) (a : Nat),
    (∀ x ∈ l, x = 0 ∨ x = 1) → l.length ≤ 32 → a < 2 ^ (32 - l.length) →
    l.foldl (fun bits elem => (bits * 2 + elem) % 2 ^ 32) a =
      l.foldl (fun bits elem => bits * 2 + elem) a := by
  intro l
  induction l with
  | nil => intro a _ _ _; rfl
  | cons x xs ih =>
    intro a h hlen ha
    simp only [List.foldl_cons]
    have hx : x = 0 ∨ x = 1 := h x (by simp)
    have hlen' : xs.length ≤ 32 := by
      simp only [List.length_cons] at hlen; omega
    have hpow : (2 : Nat) ^ (32 - xs.length) =
        2 ^ (32 - (xs.length + 1)) * 2 := by
      have hsub : 32 - xs.length = (32 - (xs.length + 1)) + 1 := by
        simp only [List.length_cons] at hlen; omega
      rw [hsub, pow_succ]
    have ha' : a * 2 + x < 2 ^ (32 - xs.length) := by
      simp only [List.length_cons] at ha
      rcases hx with rfl | rfl <;> omega
    have hlt : a * 2 + x < 2 ^ 32 :=
      lt_of_lt_of_le ha' (Nat.pow_le_pow_right (by omega) (by omega))
    rw [Nat.mod_eq_of_lt hlt]
    exact ih (a * 2 + x) (fun y hy => h y (by simp [hy])) hlen' ha'

/-- C2 counterexample: on 33×33 tiles — a size the parser accepts — the
source's `i32` accumulator silently discards the bit shifted past position
31, so `edge_match` reports a match between a north border `1,0,…,0` and an
all-zero south border that are not bit-for-bit equal. -/
theorem claim_C2_counterexample :
    IsSquare wideA 33 ∧ IsSquare wideB 33
    ∧ IsZeroOne wideA ∧ IsZeroOne wideB
    ∧ edge_match wideA .N wideB = true
    ∧ borderSeq .N wideA ≠ borderSeq (opposite_direction .N) wideB := by
  decide

/-- C2 (amended): `edge_match A d B` holds iff the fingerprint of `A`'s side
`d` equals the fingerprint of `B`'s side opposite `d` (unconditionally); for
0/1 square matrices of a common size `n ≤ 32` — so that the `i32`
accumulator loses no bits — this is in turn equivalent to the two border
sequences, each read in the fixed direction (N/S left-to-right, E/W
top-to-bottom), being bit-for-bit equal.  For `n ≥ 33` the bit-for-bit
equivalence fails (see the counterexample). -/
theorem claim_C2_amended_edge_match_rule (A B : Mat) (n : Nat) (d : Direction)
    (hA : IsSquare A n) (hB : IsSquare B n) (zA : IsZeroOne A)
    (zB : IsZeroOne B) (hn : n ≤ 32) :
    (edge_match A d B = true ↔
      EdgePattern.fromMatrix d A =
        EdgePattern.fromMatrix (opposite_direction d) B)
    ∧ (edge_match A d B = true ↔
      borderSeq d A = borderSeq (opposite_direction d) B) := by
  have hkey : edge_match A d B = true ↔
      EdgePattern.fromMatrix d A =
        EdgePattern.fromMatrix (opposite_direction d) B := by
    unfold edge_match EdgeKey.opposing EdgeKey.fromMatrix
    simp only [beq_iff_eq, EdgeKey.mk.injEq, opposite_opposite, true_and]
    exact eq_comm
  refine ⟨hkey, hkey.trans ?_⟩
  unfold EdgePattern.fromMatrix EdgePattern.fromEdge
  simp only [EdgePattern.mk.injEq]
  rw [foldl_bits_mod_eq _ 0 (borderSeq_zeroOne zA d)
      (by rw [borderSeq_length hA]; exact hn)
      (Nat.pos_pow_of_pos _ (by omega)),
    foldl_bits_mod_eq _ 0 (borderSeq_zeroOne zB (opposite_direction d))
      (by rw [borderSeq_length hB]; exact hn)
      (Nat.pos_pow_of_pos _ (by omega))]
  constructor
  · intro h
    exact foldl_bits_inj _ _
      (by rw [borderSeq_length hA, borderSeq_length hB])
      (borderSeq_zeroOne zA d) (borderSeq_zeroOne zB _) h
  · intro h
    rw [h]

/-- C2 witness: the amended rule evaluated on two concrete 2×2 tiles whose
touching edges agree. -/
theorem claim_C2_witness :
    (edge_match [[1, 0], [0, 1]] .E [[0, 1], [1, 1]] = true ↔
      EdgePattern.fromMatrix .E [[1, 0], [0, 1]] =
        EdgePattern.fromMatrix .W [[0, 1], [1, 1]])
    ∧ (edge_match [[1, 0], [0, 1]] .E [[0, 1], [1, 1]] = true ↔
      borderSeq .E [[1, 0], [0, 1]] = borderSeq .W [[0, 1], [1, 1]]) :=
  claim_C2_amended_edge_match_rule [[1, 0], [0, 1]] [[0, 1], [1, 1]] 2 .E
    (by decide) (by decide) (by decide) (by decide) (by decide)

theorem filterMap_if_length {α β : Type} (l : List α) (p : α → Bool)
    (g : α → β) :
    (l.filterMap (fun c => if p c then some (g c) else none)).length =
      (l.filter p).length := by
  induction l with
  | nil => rfl
  | cons x xs ih =>
    by_cases hx : p x <;> simp [List.filterMap_cons, List.filter_cons, hx, ih]

/-- C6: the motif mask is 3×20 with exactly 15 set bits; a window offset is
an occurrence exactly when every mask cell equal to 1 aligns with a nonzero
bitmap cell (mask zeros place no constraint); the occurrence list found by
`find_image_locations` has one element per matching window offset; and the
roughness returned for a bitmap `B` with occurrence list `L` is
`count_ones B - 15 * |L|`. -/
theorem claim_C6_roughness_formula (B : Mat) (L : List (Int × Int)) :
    (nrows nessie = 3 ∧ ncols nessie = 20 ∧ count_ones nessie = 15)
    ∧ (∀ r c, mask_match_at B nessie r c = true ↔
        ∀ a b, a < 3 → b < 20 → mget nessie a b = 1 →
          mget B (r + a) (c + b) ≠ 0)
    ∧ (find_image_locations B nessie).length =
        ((List.range (nrows B + 1 - 3)).map (fun r =>
          ((List.range (ncols B + 1 - 20)).filter
            (fun c => mask_match_at B nessie r c)).length)).sum
    ∧ measure_roughness B L nessie = count_ones B - 15 * L.length := by
  refine ⟨⟨rfl, rfl, by decide⟩, ?_, ?_, ?_⟩
  · intro r c
    have hdim : nrows nessie = 3 ∧ ncols nessie = 20 := ⟨rfl, rfl⟩
    have hcell : ∀ a, a < 3 → ∀ b, b < 20 →
        mget nessie a b = 0 ∨ mget nessie a b = 1 := by decide
    unfold mask_match_at
    rw [hdim.1, hdim.2]
    simp only [List.all_eq_true, List.mem_range]
    constructor
    · intro h a b ha hb hm
      have h2 := h a ha b hb
      simp only [mask_cell_ok, Bool.or_eq_true, beq_iff_eq,
        Bool.not_eq_true', beq_eq_false_iff_ne, ne_eq] at h2
      rcases h2 with h2 | h2
      · rw [hm] at h2
        exact absurd h2 one_ne_zero
      · exact h2
    · intro h a ha b hb
      simp only [mask_cell_ok, Bool.or_eq_true, beq_iff_eq,
        Bool.not_eq_true', beq_eq_false_iff_ne, ne_eq]
      rcases hcell a ha b hb with h0 | h1
      · exact Or.inl h0
      · exact Or.inr (h a b ha hb h1)
  · unfold find_image_locations
    rw [List.length_flatMap]
    show ((List.range (nrows B + 1 - nrows nessie)).map _).sum = _
    congr 1
    apply List.map_congr_left
    intro r _
    exact filterMap_if_length _ _ _
  · unfold measure_roughness
    have : count_ones nessie = 15 := by decide
    rw [this, Nat.mul_comm]

/-! ### The edge index and symmetric tiles (C7) -/

/-- C7 counterexample: `make_tile_index` does **not** tolerate a symmetric
tile — on a catalog holding one all-zero tile the per-tile uniqueness
assertion fires and the build aborts. -/
theorem claim_C7_counterexample :
    make_tile_index [(symmetricTile.id, symmetricTile)] = none := by decide

theorem indexOneTile_isSome (t : Tile) :
    ∀ (ms : List Manipulation) (seen : List Mat) (ix : EdgeIndex),
    (∀ m ∈ ms, (m.on t.d) ∉ seen) →
    (ms.map (fun m => m.on t.d)).Nodup →
    (indexOneTile t ms seen ix).isSome := by
  intro ms
  induction ms with
  | nil => intro seen ix _ _; simp [indexOneTile]
  | cons m rest ih =>
    intro seen ix hseen hnodup
    have hm : (m.on t.d) ∉ seen := hseen m (by simp)
    unfold indexOneTile
    rw [if_neg (by simpa using hm)]
    apply ih
    · intro m' hm' hmem
      simp only [List.mem_cons] at hmem
      rcases hmem with hmem | hmem
      · have : m.on t.d ∈ rest.map (fun m => m.on t.d) :=
          List.mem_map.mpr ⟨m', hm', hmem⟩
        exact (List.nodup_cons.mp hnodup).1 this
      · exact hseen m' (by simp [hm']) hmem
    · exact (List.nodup_cons.mp hnodup).2

/-- C7 amended: `make_tile_index` completes without failure for every
catalog in which each tile's 8 manipulated matrices are pairwise distinct
(no tile is symmetric under a nonidentity manipulation); a symmetric tile
instead trips the uniqueness assertion, as the counterexample shows. -/
theorem claim_C7_amended_index_builds (tiles : List (TileId × Tile))
    (h : ∀ p ∈ tiles, ((Manipulation.all).map (fun m => m.on p.2.d)).Nodup) :
    (make_tile_index tiles).isSome := by
  unfold make_tile_index
  suffices hgen : ∀ acc : EdgeIndex,
      (tiles.foldlM (fun ix (p : TileId × Tile) =>
        indexOneTile p.2 Manipulation.all [] ix) acc).isSome by
    exact hgen []
  induction tiles with
  | nil => intro acc; simp
  | cons p rest ih =>
    intro acc
    simp only [List.foldlM_cons]
    have h1 : (indexOneTile p.2 Manipulation.all [] acc).isSome :=
      indexOneTile_isSome p.2 Manipulation.all [] acc (by simp)
        (h p (by simp))
    obtain ⟨ix1, hix1⟩ := Option.isSome_iff_exists.mp h1
    rw [hix1]
    exact ih (fun q hq => h q (by simp [hq])) ix1

/-- C7 witness: the amended theorem applied to the concrete two-tile
catalog of asymmetric tiles. -/
theorem claim_C7_witness : (make_tile_index catalogAB).isSome :=
  claim_C7_amended_index_builds catalogAB (by decide)

/-! ### Parsing and tile-size consistency (C8) -/

/-- C8 counterexample: `read_tiles` does **not** fail on a catalog whose
tiles have two different sizes — the mixed 2×2/3×3 input parses
successfully. -/
theorem claim_C8_counterexample :
    read_tiles mixedSizeInput =
      some [({ val := 1 }, { id := { val := 1 }, d := [[0, 0], [0, 0]] }),
            ({ val := 2 },
             { id := { val := 2 },
               d := [[0, 0, 0], [0, 0, 0], [0, 0, 0]] })] := by
  decide

/-- C8 amended: parsing validates each record only individually (square
shape, allowed characters, well-formed header); it never compares sizes
across records, so any two individually well-formed records — of equal or
differing sizes — are collected successfully. -/
theorem claim_C8_amended_no_size_check (r1 r2 : List Char) (t1 t2 : Tile)
    (h1 : Tile.from_string r1 = some t1) (h2 : Tile.from_string r2 = some t2) :
    read_tiles_records [r1, r2] = some [(t1.id, t1), (t2.id, t2)] := by
  simp [read_tiles_records, optMap, h1, h2]

/-- C8 witness: the amended theorem applied to concrete records of sizes
2 and 3. -/
theorem claim_C8_witness :
    read_tiles_records
        [("Tile 1:\n..\n..").toList, ("Tile 2:\n...\n...\n...").toList] =
      some [({ val := 1 }, { id := { val := 1 }, d := [[0, 0], [0, 0]] }),
            ({ val := 2 },
             { id := { val := 2 },
               d := [[0, 0, 0], [0, 0, 0], [0, 0, 0]] })] :=
  claim_C8_amended_no_size_check ("Tile 1:\n..\n..").toList
    ("Tile 2:\n...\n...\n...").toList
    { id := { val := 1 }, d := [[0, 0], [0, 0]] }
    { id := { val := 2 }, d := [[0, 0, 0], [0, 0, 0], [0, 0, 0]] }
    (by decide) (by decide)

/-! ### Association-list lemmas -/

theorem alookup_cons {α β : Type} [DecidableEq α] (k : α) (v : β)
    (l : List (α × β)) (k' : α) :
    alookup ((k, v) :: l) k' = if k' = k then some v else alookup l k' := by
  unfold alookup
  rw [List.find?_cons]
  by_cases h : k' = k
  · subst h; simp
  · have hne : ¬k = k' := fun h' => h h'.symm
    simp [hne, h]

theorem alookup_eq_none {α β : Type} [DecidableEq α] {l : List (α × β)}
    {k : α} : alookup l k = none ↔ k ∉ l.map Prod.fst := by
  induction l with
  | nil => simp [alookup]
  | cons p rest ih =>
    obtain ⟨pk, pv⟩ := p
    rw [alookup_cons]
    by_cases h : k = pk
    · subst h; simp
    · have hne : ¬pk = k := fun h' => h h'.symm
      simp [h, hne, ih]

theorem alookup_mem {α β : Type} [DecidableEq α] {l : List (α × β)} {k : α}
    {v : β} (h : alookup l k = some v) : (k, v) ∈ l := by
  induction l with
  | nil => simp [alookup] at h
  | cons p rest ih =>
    obtain ⟨pk, pv⟩ := p
    rw [alookup_cons] at h
    by_cases hk : k = pk
    · subst hk
      rw [if_pos rfl] at h
      obtain rfl : pv = v := by injection h
      exact List.mem_cons_self _ _
    · rw [if_neg hk] at h
      exact List.mem_cons_of_mem _ (ih h)

/-! ### The solution/frontier invariant (C3) -/

theorem direction_mem_all (d : Direction) : d ∈ Direction.all := by
  cases d <;> simp [Direction.all]

theorem place_tile_t2p (sol : TileLocationSolution) (t : Tile)
    (how : Manipulation) (pos : Position) :
    (sol.place_tile t how pos).tile_to_position =
      (t.id, (pos, how)) :: sol.tile_to_position := rfl

theorem place_tile_p2t (sol : TileLocationSolution) (t : Tile)
    (how : Manipulation) (pos : Position) :
    (sol.place_tile t how pos).position_to_tile =
      (pos, t.id) :: sol.position_to_tile := rfl

theorem occupied_place (sol : TileLocationSolution) (t : Tile)
    (how : Manipulation) (pos q : Position) :
    (sol.place_tile t how pos).occupied q = (q = pos || sol.occupied q) := by
  unfold TileLocationSolution.occupied
  rw [place_tile_p2t, alookup_cons]
  by_cases h : q = pos <;> simp [h]

theorem place_tile_exposed (sol : TileLocationSolution) (t : Tile)
    (how : Manipulation) (pos : Position) :
    (sol.place_tile t how pos).exposed_edges =
      sol.exposed_edges.filter (fun ex =>
        !((sol.place_tile t how pos).occupied
            (get_neighbour ex.pos ex.direction)))
      ++ Direction.all.filterMap (fun d =>
        if (sol.place_tile t how pos).occupied (get_neighbour pos d) then none
        else some { edge_pattern :=
                      EdgePattern.fromMatrix d (t.manipulated how)
                    pos := pos
                    direction := d }) := rfl

theorem place_preserves_inv {tiles : List (TileId × Tile)}
    {sol : TileLocationSolution} (t : Tile) (how : Manipulation)
    (pos : Position) (hinv : SolutionInv tiles sol)
    (hcat : alookup tiles t.id = some t)
    (hunplaced : sol.get_position_of_tile t.id = none)
    (hunocc : sol.occupied pos = false) :
    SolutionInv tiles (sol.place_tile t how pos) := by
  obtain ⟨inv1, inv2, inv3, inv4, inv5⟩ := hinv
  have hunplaced' : alookup sol.tile_to_position t.id = none := hunplaced
  refine ⟨?_, ?_, ?_, ?_, ?_⟩
  · -- tile_to_position entries are mirrored in position_to_tile
    intro tid p m
    rw [place_tile_t2p, place_tile_p2t, alookup_cons, alookup_cons]
    by_cases htid : tid = t.id
    · subst htid
      rw [if_pos rfl]
      intro h
      injection h with h2
      injection h2 with ha hb
      subst ha
      rw [if_pos rfl]
    · rw [if_neg htid]
      intro h
      have hold := inv1 tid p m h
      have hp : p ≠ pos := by
        intro hpp
        subst hpp
        unfold TileLocationSolution.occupied at hunocc
        rw [hold] at hunocc
        simp at hunocc
      rw [if_neg hp]
      exact hold
  · -- position_to_tile entries are mirrored in tile_to_position
    intro p tid
    rw [place_tile_t2p, place_tile_p2t, alookup_cons, alookup_cons]
    by_cases hp : p = pos
    · subst hp
      rw [if_pos rfl]
      intro h
      obtain rfl : t.id = tid := by injection h
      rw [if_pos rfl]
      exact ⟨how, rfl⟩
    · rw [if_neg hp]
      intro h
      obtain ⟨m, hm⟩ := inv2 p tid h
      have htid : tid ≠ t.id := by
        intro htt
        subst htt
        rw [hunplaced'] at hm
        exact Option.noConfusion hm
      rw [if_neg htid]
      exact ⟨m, hm⟩
  · rw [place_tile_t2p]
    simp only [List.map_cons, List.nodup_cons]
    exact ⟨alookup_eq_none.mp hunplaced', inv3⟩
  · rw [place_tile_p2t]
    simp only [List.map_cons, List.nodup_cons]
    have : alookup sol.position_to_tile pos = none := by
      unfold TileLocationSolution.occupied at hunocc
      cases hq : alookup sol.position_to_tile pos with
      | none => rfl
      | some v => rw [hq] at hunocc; simp at hunocc
    exact ⟨alookup_eq_none.mp this, inv4⟩
  · -- frontier exactness
    intro e
    rw [place_tile_exposed, List.mem_append, List.mem_filter,
      List.mem_filterMap]
    constructor
    · rintro (⟨hold, hflt⟩ | ⟨d, hd, hsome⟩)
      · -- a surviving old exposure
        obtain ⟨tid, how', t', hpt, htp, hcat', hocc, hpat⟩ :=
          (inv5 e).mp hold
        have hppos : e.pos ≠ pos := by
          intro hpp
          unfold TileLocationSolution.occupied at hunocc
          rw [hpp] at hpt
          rw [hpt] at hunocc
          simp at hunocc
        have htid : tid ≠ t.id := by
          intro htt
          rw [htt, hunplaced'] at htp
          exact Option.noConfusion htp
        refine ⟨tid, how', t', ?_, ?_, hcat', ?_, hpat⟩
        · rw [place_tile_p2t, alookup_cons, if_neg hppos]
          exact hpt
        · rw [place_tile_t2p, alookup_cons, if_neg htid]
          exact htp
        · simpa using hflt
      · -- a fresh exposure of the new tile
        by_cases hocc :
            (sol.place_tile t how pos).occupied (get_neighbour pos d)
        · rw [if_pos hocc] at hsome
          exact Option.noConfusion hsome
        · rw [if_neg hocc] at hsome
          have he := Option.some.inj hsome
          subst he
          refine ⟨t.id, how, t, ?_, ?_, hcat, ?_, rfl⟩
          · rw [place_tile_p2t, alookup_cons, if_pos rfl]
          · rw [place_tile_t2p, alookup_cons, if_pos rfl]
          · simpa using hocc
    · rintro ⟨tid, how', t', hpt, htp, hcat', hocc, hpat⟩
      by_cases hppos : e.pos = pos
      · -- the edge sits on the freshly placed tile
        right
        rw [place_tile_p2t, hppos, alookup_cons, if_pos rfl] at hpt
        obtain rfl : t.id = tid := by injection hpt
        rw [place_tile_t2p, alookup_cons, if_pos rfl] at htp
        injection htp with htp2
        injection htp2 with h1 h2
        refine ⟨e.direction, direction_mem_all _, ?_⟩
        rw [hppos] at hocc
        rw [if_neg (by simp [hocc])]
        have ht : t = t' := by
          rw [hcat] at hcat'
          injection hcat'
        congr 1
        cases e with
        | mk ep epos edir =>
          simp only at hppos hpat
          simp only [ExposedEdge.mk.injEq]
          rw [← ht, ← h2] at hpat
          exact ⟨hpat.symm, hppos.symm, trivial⟩
      · -- the edge belongs to an old tile and survived the pruning
        left
        rw [place_tile_p2t, alookup_cons, if_neg hppos] at hpt
        have htid : tid ≠ t.id := by
          intro htt
          obtain ⟨m, hm⟩ := inv2 _ _ hpt
          rw [htt, hunplaced'] at hm
          exact Option.noConfusion hm
        rw [place_tile_t2p, alookup_cons, if_neg htid] at htp
        have holdocc : sol.occupied (get_neighbour e.pos e.direction) = false := by
          rw [occupied_place] at hocc
          rcases Bool.or_eq_false_iff.mp hocc with ⟨-, h2⟩
          exact h2
        have : e ∈ sol.exposed_edges :=
          (inv5 e).mpr ⟨tid, how', t', hpt, htp, hcat', holdocc, hpat⟩
        exact ⟨this, by simp [hocc]⟩

/-- Auxiliary form of the invariant theorem, shared by several claims. -/
theorem reached_inv {tiles : List (TileId × Tile)}
    {sol : TileLocationSolution} (h : Reached tiles sol) :
    SolutionInv tiles sol := by
  induction h with
  | base =>
    refine ⟨?_, ?_, ?_, ?_, ?_⟩ <;>
      simp [TileLocationSolution.new, alookup, FrontierSpec]
  | step t how pos _ hcat hunplaced hunocc ih =>
    exact place_preserves_inv t how pos ih hcat hunplaced hunocc

/-- C3: after any sequence of `place_tile` operations from the empty
solution (each placing an unplaced catalog tile at an unoccupied position)
the two maps are mutual inverses with no duplicated keys, and
`exposed_edges` holds exactly the (position, direction, fingerprint)
triples of placed-tile sides facing unoccupied positions, fingerprints
taken from the placed tile's manipulated matrix. -/
theorem claim_C3_solution_invariant (tiles : List (TileId × Tile))
    (sol : TileLocationSolution) (h : Reached tiles sol) :
    SolutionInv tiles sol :=
  reached_inv h

/-- C3 witness: the invariant evaluated after one concrete placement. -/
theorem claim_C3_witness :
    SolutionInv catalogAB
      (TileLocationSolution.new.place_tile tileA Manipulation.noop
        { x := 0, y := 0 }) :=
  claim_C3_solution_invariant catalogAB _
    (Reached.step tileA Manipulation.noop { x := 0, y := 0 } Reached.base
      (by decide) rfl rfl)

/-! ### Index lookups never miss (C10) -/

theorem manipulation_mem_all (mp : Manipulation) : mp ∈ Manipulation.all := by
  obtain ⟨r, f⟩ := mp
  cases r <;> cases f <;> decide

theorem alookup_mapUpdate_isSome (ix : EdgeIndex) (k : EdgePattern)
    (bucket : List TileIndexEntry) (e : TileIndexEntry) (k' : EdgePattern) :
    (alookup (ix.map (fun p => if p.1 = k then (p.1, bucket ++ [e]) else p))
      k').isSome = (alookup ix k').isSome := by
  induction ix with
  | nil => rfl
  | cons p rest ih =>
    obtain ⟨pk, pv⟩ := p
    rw [List.map_cons]
    by_cases hpk : pk = k
    · dsimp only
      rw [if_pos hpk, alookup_cons, alookup_cons]
      by_cases hk' : k' = pk
      · simp [hk']
      · rw [if_neg hk', if_neg hk']
        exact ih
    · dsimp only
      rw [if_neg hpk, alookup_cons, alookup_cons]
      by_cases hk' : k' = pk
      · simp [hk']
      · rw [if_neg hk', if_neg hk']
        exact ih

theorem indexPush_eq_insert {ix : EdgeIndex} {k : EdgePattern}
    {e : TileIndexEntry} (h : alookup ix k = none) :
    indexPush ix k e = (k, [e]) :: ix := by
  unfold indexPush
  rw [h]

theorem indexPush_eq_map {ix : EdgeIndex} {k : EdgePattern}
    {e : TileIndexEntry} {bucket : List TileIndexEntry}
    (h : alookup ix k = some bucket) :
    indexPush ix k e =
      ix.map (fun p => if p.1 = k then (p.1, bucket ++ [e]) else p) := by
  unfold indexPush
  rw [h]

theorem alookup_indexPush_mono {ix : EdgeIndex} {k k' : EdgePattern}
    {e : TileIndexEntry} (h : (alookup ix k').isSome) :
    (alookup (indexPush ix k e) k').isSome := by
  cases hk : alookup ix k with
  | none =>
    rw [indexPush_eq_insert hk, alookup_cons]
    by_cases hkk : k' = k
    · simp [hkk]
    · rw [if_neg hkk]; exact h
  | some bucket =>
    rw [indexPush_eq_map hk, alookup_mapUpdate_isSome]
    exact h

theorem alookup_indexPush_self {ix : EdgeIndex} {k : EdgePattern}
    {e : TileIndexEntry} : (alookup (indexPush ix k e) k).isSome := by
  cases hk : alookup ix k with
  | none => rw [indexPush_eq_insert hk, alookup_cons, if_pos rfl]; rfl
  | some bucket =>
    rw [indexPush_eq_map hk, alookup_mapUpdate_isSome, hk]
    rfl

theorem alookup_foldl_push_mono {keys : List EdgeKey} {ix : EdgeIndex}
    {k : EdgePattern} {mk : EdgeKey → TileIndexEntry}
    (h : (alookup ix k).isSome) :
    (alookup (keys.foldl (fun acc ek => indexPush acc ek.pattern (mk ek)) ix)
      k).isSome := by
  induction keys generalizing ix with
  | nil => exact h
  | cons ek rest ih =>
    rw [List.foldl_cons]
    exact ih (alookup_indexPush_mono h)

theorem alookup_foldl_push_adds {keys : List EdgeKey} {ix : EdgeIndex}
    {ek : EdgeKey} {mk : EdgeKey → TileIndexEntry} (hmem : ek ∈ keys) :
    (alookup (keys.foldl (fun acc e => indexPush acc e.pattern (mk e)) ix)
      ek.pattern).isSome := by
  induction keys generalizing ix with
  | nil => simp at hmem
  | cons e0 rest ih =>
    rw [List.foldl_cons]
    rcases List.mem_cons.mp hmem with rfl | hmem'
    · exact alookup_foldl_push_mono alookup_indexPush_self
    · exact ih hmem'

theorem indexOneTile_mono {t : Tile} :
    ∀ {ms : List Manipulation} {seen : List Mat} {ix ix' : EdgeIndex}
    {k : EdgePattern},
    indexOneTile t ms seen ix = some ix' → (alookup ix k).isSome →
    (alookup ix' k).isSome := by
  intro ms
  induction ms with
  | nil =>
    intro seen ix ix' k h hk
    obtain rfl : ix = ix' := by
      unfold indexOneTile at h
      injection h
    exact hk
  | cons m rest ih =>
    intro seen ix ix' k h hk
    unfold indexOneTile at h
    by_cases hseen : (List.contains seen (m.on t.d)) = true
    · rw [if_pos hseen] at h
      exact Option.noConfusion h
    · rw [if_neg hseen] at h
      exact ih h (alookup_foldl_push_mono hk)

theorem get_edge_keys_mem (d : Direction) (v : Mat) :
    EdgeKey.fromMatrix d v ∈ get_edge_keys v := by
  cases d <;> simp [get_edge_keys]

theorem indexOneTile_adds {t : Tile} :
    ∀ {ms : List Manipulation} {seen : List Mat} {ix ix' : EdgeIndex}
    {m : Manipulation} {d : Direction},
    indexOneTile t ms seen ix = some ix' → m ∈ ms →
    (alookup ix' (EdgePattern.fromMatrix d (m.on t.d))).isSome := by
  intro ms
  induction ms with
  | nil => intro seen ix ix' m d _ hm; simp at hm
  | cons m0 rest ih =>
    intro seen ix ix' m d h hm
    unfold indexOneTile at h
    by_cases hseen : (List.contains seen (m0.on t.d)) = true
    · rw [if_pos hseen] at h
      exact Option.noConfusion h
    · rw [if_neg hseen] at h
      rcases List.mem_cons.mp hm with rfl | hm'
      · refine indexOneTile_mono h ?_
        have hkmem := get_edge_keys_mem d (m.on t.d)
        have := @alookup_foldl_push_adds (get_edge_keys (m.on t.d)) ix
          (EdgeKey.fromMatrix d (m.on t.d))
          (fun _ => { tile_id := t.id, manipulation := m }) hkmem
        simpa [EdgeKey.fromMatrix] using this
      · exact ih h hm'

theorem foldlM_index_mono {tiles : List (TileId × Tile)} :
    ∀ {acc ix : EdgeIndex} {k : EdgePattern},
    (tiles.foldlM (fun ix (p : TileId × Tile) =>
      indexOneTile p.2 Manipulation.all [] ix) acc) = some ix →
    (alookup acc k).isSome → (alookup ix k).isSome := by
  induction tiles with
  | nil =>
    intro acc ix k h hk
    obtain rfl : acc = ix := by injection h
    exact hk
  | cons p rest ih =>
    intro acc ix k h hk
    rw [List.foldlM_cons] at h
    cases h1 : indexOneTile p.2 Manipulation.all [] acc with
    | none =>
      rw [h1] at h
      exact Option.noConfusion h
    | some acc1 =>
      rw [h1] at h
      exact ih h (indexOneTile_mono h1 hk)

theorem foldlM_index_adds {tiles : List (TileId × Tile)} :
    ∀ {acc ix : EdgeIndex} {tid : TileId} {t : Tile},
    (tiles.foldlM (fun ix (p : TileId × Tile) =>
      indexOneTile p.2 Manipulation.all [] ix) acc) = some ix →
    (tid, t) ∈ tiles → ∀ (m : Manipulation) (d : Direction),
    (alookup ix (EdgePattern.fromMatrix d (m.on t.d))).isSome := by
  induction tiles with
  | nil => intro acc ix tid t _ hmem; simp at hmem
  | cons p rest ih =>
    intro acc ix tid t h hmem m d
    rw [List.foldlM_cons] at h
    cases h1 : indexOneTile p.2 Manipulation.all [] acc with
    | none =>
      rw [h1] at h
      exact Option.noConfusion h
    | some acc1 =>
      rw [h1] at h
      rcases List.mem_cons.mp hmem with heq | hmem'
      · subst heq
        exact foldlM_index_mono h
          (indexOneTile_adds h1 (manipulation_mem_all m))
      · exact ih h hmem' m d

theorem make_tile_index_adds {tiles : List (TileId × Tile)} {ix : EdgeIndex}
    {tid : TileId} {t : Tile} (hix : make_tile_index tiles = some ix)
    (hmem : (tid, t) ∈ tiles) (m : Manipulation) (d : Direction) :
    (alookup ix (EdgePattern.fromMatrix d (m.on t.d))).isSome := by
  unfold make_tile_index at hix
  exact foldlM_index_adds hix hmem m d

/-- C10: for a solution reachable by placements of catalog tiles and an
edge index built by `make_tile_index` from the same catalog, the
fingerprint of every exposed edge is present as a key of the index — the
fatal `expect("edge missing from index")` lookup in `get_candidates`
cannot fire. -/
theorem claim_C10_index_lookups_hit (tiles : List (TileId × Tile))
    (ix : EdgeIndex) (sol : TileLocationSolution) (e : ExposedEdge)
    (hix : make_tile_index tiles = some ix) (hreach : Reached tiles sol)
    (he : e ∈ sol.exposed_edges) :
    (alookup ix e.edge_pattern).isSome := by
  obtain ⟨tid, how, t, -, -, hcat, -, hpat⟩ :=
    ((reached_inv hreach).2.2.2.2 e).mp he
  rw [hpat]
  exact make_tile_index_adds hix (alookup_mem hcat) how e.direction

set_option maxRecDepth 100000 in
/-- C10 witness: the lookup-never-misses theorem applied to a concrete
catalog, its index, one placement, and one exposed edge. -/
theorem claim_C10_witness :
    (alookup ((make_tile_index catalogAB).getD [])
      ({ edge_pattern := { bits := 1 }, pos := { x := 0, y := 0 },
         direction := Direction.N } : ExposedEdge).edge_pattern).isSome :=
  claim_C10_index_lookups_hit catalogAB
    ((make_tile_index catalogAB).getD [])
    (TileLocationSolution.new.place_tile tileA Manipulation.noop
      { x := 0, y := 0 })
    { edge_pattern := { bits := 1 }, pos := { x := 0, y := 0 },
      direction := Direction.N }
    (by decide)
    (Reached.step tileA Manipulation.noop { x := 0, y := 0 } Reached.base
      (by decide) rfl rfl)
    (by decide)

/-! ### The exactly-one commit rule (C1) -/

theorem candPush_eq_insert {g : List (TileId × List Manipulation)}
    {t : TileId} {m : Manipulation} (h : alookup g t = none) :
    candPush g t m = g ++ [(t, [m])] := by
  unfold candPush
  rw [h]

theorem candPush_eq_map {g : List (TileId × List Manipulation)} {t : TileId}
    {m : Manipulation} {bucket : List Manipulation}
    (h : alookup g t = some bucket) :
    candPush g t m =
      g.map (fun p => if p.1 = t then (p.1, bucket ++ [m]) else p) := by
  unfold candPush
  rw [h]

theorem map_update_id {α β : Type} [DecidableEq α] {l : List (α × β)}
    {t : α} {x : β} (h : ∀ p ∈ l, p.1 ≠ t) :
    l.map (fun p => if p.1 = t then (p.1, x) else p) = l := by
  induction l with
  | nil => rfl
  | cons p rest ih =>
    rw [List.map_cons, if_neg (h p (by simp))]
    rw [ih (fun q hq => h q (by simp [hq]))]

theorem candPush_keys_nodup {g : List (TileId × List Manipulation)}
    {t : TileId} {m : Manipulation} (h : (g.map Prod.fst).Nodup) :
    ((candPush g t m).map Prod.fst).Nodup := by
  cases hk : alookup g t with
  | none =>
    rw [candPush_eq_insert hk, List.map_append]
    have hperm : (g.map Prod.fst ++ [(t, [m])].map Prod.fst).Perm
        (t :: g.map Prod.fst) := by
      simpa using List.perm_append_singleton t (g.map Prod.fst)
    rw [hperm.nodup_iff]
    exact List.nodup_cons.mpr ⟨alookup_eq_none.mp hk, h⟩
  | some bucket =>
    rw [candPush_eq_map hk]
    have : ((g.map (fun p => if p.1 = t then (p.1, bucket ++ [m]) else p)).map
        Prod.fst) = g.map Prod.fst := by
      rw [List.map_map]
      apply List.map_congr_left
      intro p _
      by_cases hp : p.1 = t <;> simp [hp]
    rw [this]
    exact h

theorem groupSum_map_update :
    ∀ (g : List (TileId × List Manipulation)) (t : TileId)
      (m : Manipulation) (bucket : List Manipulation),
    alookup g t = some bucket → (g.map Prod.fst).Nodup →
    groupSum (g.map (fun p => if p.1 = t then (p.1, bucket ++ [m]) else p)) =
      groupSum g + 1 := by
  intro g
  induction g with
  | nil => intro t m bucket hk _; simp [alookup] at hk
  | cons p rest ih =>
    intro t m bucket hk h
    obtain ⟨pk, pv⟩ := p
    simp only [List.map_cons, List.nodup_cons, List.mem_map] at h
    rw [alookup_cons] at hk
    by_cases hp : t = pk
    · subst hp
      rw [if_pos rfl] at hk
      have hpv : pv = bucket := by injection hk
      subst hpv
      rw [List.map_cons]
      dsimp only
      rw [if_pos rfl]
      have hrest : rest.map (fun p => if p.1 = t then (p.1, pv ++ [m])
          else p) = rest := by
        apply map_update_id
        intro q hq hqt
        exact h.1 ⟨q, hq, hqt⟩
      rw [hrest]
      simp only [groupSum, List.map_cons, List.sum_cons, List.length_append,
        List.length_cons, List.length_nil]
      omega
    · rw [if_neg hp] at hk
      rw [List.map_cons]
      dsimp only
      have hp' : ¬ pk = t := fun hh => hp hh.symm
      rw [if_neg hp']
      have := ih t m bucket hk h.2
      simp only [groupSum, List.map_cons, List.sum_cons] at this ⊢
      omega

theorem candPush_sum {g : List (TileId × List Manipulation)} {t : TileId}
    {m : Manipulation} (h : (g.map Prod.fst).Nodup) :
    groupSum (candPush g t m) = groupSum g + 1 := by
  cases hk : alookup g t with
  | none =>
    rw [candPush_eq_insert hk]
    simp [groupSum]
  | some bucket =>
    rw [candPush_eq_map hk]
    exact groupSum_map_update g t m bucket hk h

theorem candGroups_nodup_sum (ps : List (TileId × Manipulation)) :
    ∀ (g : List (TileId × List Manipulation)), (g.map Prod.fst).Nodup →
    ((ps.foldl (fun g p => candPush g p.1 p.2) g).map Prod.fst).Nodup ∧
    groupSum (ps.foldl (fun g p => candPush g p.1 p.2) g) =
      groupSum g + ps.length := by
  induction ps with
  | nil => intro g hg; exact ⟨hg, by simp⟩
  | cons p rest ih =>
    intro g hg
    rw [List.foldl_cons]
    obtain ⟨h1, h2⟩ := ih (candPush g p.1 p.2) (candPush_keys_nodup hg)
    refine ⟨h1, ?_⟩
    rw [h2, candPush_sum hg, List.length_cons]
    omega

theorem candGroups_single_iff {ps : List (TileId × Manipulation)}
    {t : TileId} {m : Manipulation} :
    candGroups ps = [(t, [m])] ↔ ps = [(t, m)] := by
  constructor
  · intro h
    have hsum := (candGroups_nodup_sum ps [] (by simp)).2
    rw [show ps.foldl (fun g p => candPush g p.1 p.2) [] = candGroups ps
        from rfl, h] at hsum
    have hlen : ps.length = 1 := by
      simpa [groupSum] using hsum.symm
    obtain ⟨p0, hp0⟩ := List.length_eq_one.mp hlen
    subst hp0
    obtain ⟨t0, m0⟩ := p0
    have : candGroups [(t0, m0)] = [(t0, [m0])] := rfl
    rw [this] at h
    injection h with h1 _
    injection h1 with ha hb
    injection hb with hb1
    rw [ha, hb1]
  · intro h
    subst h
    rfl

theorem get_candidates_fold_eq (tiles : List (TileId × Tile))
    (solution : TileLocationSolution)
    (bucket : List TileIndexEntry) (empty_pos : Position) :
    ∀ g : List (TileId × List Manipulation),
    bucket.foldl (fun result cand =>
      if (solution.get_position_of_tile cand.tile_id).isSome then result
      else if candidate_fits_neighbours cand empty_pos tiles solution then
        candPush result cand.tile_id cand.manipulation
      else result) g =
    ((bucket.filter (fun cand =>
        !(solution.get_position_of_tile cand.tile_id).isSome &&
        candidate_fits_neighbours cand empty_pos tiles solution)).map
      (fun cand => (cand.tile_id, cand.manipulation))).foldl
      (fun g p => candPush g p.1 p.2) g := by
  induction bucket with
  | nil => intro g; rfl
  | cons cand rest ih =>
    intro g
    rw [List.foldl_cons, List.filter_cons]
    by_cases hplaced : (solution.get_position_of_tile cand.tile_id).isSome
    · rw [if_pos hplaced]
      have : (!(solution.get_position_of_tile cand.tile_id).isSome &&
          candidate_fits_neighbours cand empty_pos tiles solution) = false := by
        simp [hplaced]
      rw [this, if_neg (by simp)]
      exact ih g
    · rw [if_neg hplaced]
      by_cases hfits : candidate_fits_neighbours cand empty_pos tiles solution
      · rw [if_pos hfits]
        have : (!(solution.get_position_of_tile cand.tile_id).isSome &&
            candidate_fits_neighbours cand empty_pos tiles solution) = true := by
          simp [hplaced, hfits]
        rw [this, if_pos rfl, List.map_cons, List.foldl_cons]
        exact ih _
      · rw [if_neg hfits]
        have : (!(solution.get_position_of_tile cand.tile_id).isSome &&
            candidate_fits_neighbours cand empty_pos tiles solution) = false := by
          simp [hplaced, hfits]
        rw [this, if_neg (by simp)]
        exact ih g

theorem survivors_eq_of_bucket {tiles : List (TileId × Tile)}
    {ix : EdgeIndex} {solution : TileLocationSolution} {e : ExposedEdge}
    {bucket : List TileIndexEntry}
    (hb : alookup ix e.edge_pattern = some bucket) :
    survivors tiles ix solution e =
      (bucket.filter (fun cand =>
        !(solution.get_position_of_tile cand.tile_id).isSome &&
        candidate_fits_neighbours cand
          (get_neighbour e.pos e.direction) tiles solution)).map
        (fun cand => (cand.tile_id, cand.manipulation)) := by
  unfold survivors
  rw [hb]

theorem get_candidates_eq_some {tiles : List (TileId × Tile)}
    {ix : EdgeIndex} {solution : TileLocationSolution} {e : ExposedEdge}
    {bucket : List TileIndexEntry}
    (hocc : (solution.get_tile_at_position
      (get_neighbour e.pos e.direction)).isSome = false)
    (hb : alookup ix e.edge_pattern = some bucket) :
    get_candidates tiles ix solution e =
      some (bucket.foldl (fun result cand =>
        if (solution.get_position_of_tile cand.tile_id).isSome then result
        else if candidate_fits_neighbours cand
            (get_neighbour e.pos e.direction) tiles solution then
          candPush result cand.tile_id cand.manipulation
        else result) []) := by
  unfold get_candidates
  rw [if_neg (by simp [hocc]), hb]

theorem get_candidates_none_occupied {tiles : List (TileId × Tile)}
    {ix : EdgeIndex} {solution : TileLocationSolution} {e : ExposedEdge}
    (hocc : (solution.get_tile_at_position
      (get_neighbour e.pos e.direction)).isSome = true) :
    get_candidates tiles ix solution e = none := by
  unfold get_candidates
  rw [if_pos hocc]

theorem get_candidates_none_key {tiles : List (TileId × Tile)}
    {ix : EdgeIndex} {solution : TileLocationSolution} {e : ExposedEdge}
    (hocc : (solution.get_tile_at_position
      (get_neighbour e.pos e.direction)).isSome = false)
    (hb : alookup ix e.edge_pattern = none) :
    get_candidates tiles ix solution e = none := by
  unfold get_candidates
  rw [if_neg (by simp [hocc]), hb]

theorem get_candidates_eq_candGroups {tiles : List (TileId × Tile)}
    {ix : EdgeIndex} {solution : TileLocationSolution} {e : ExposedEdge}
    {groups : List (TileId × List Manipulation)}
    (h : get_candidates tiles ix solution e = some groups) :
    groups = candGroups (survivors tiles ix solution e) := by
  by_cases hocc : (solution.get_tile_at_position
      (get_neighbour e.pos e.direction)).isSome
  · rw [get_candidates_none_occupied hocc] at h
    exact Option.noConfusion h
  · cases hb : alookup ix e.edge_pattern with
    | none =>
      rw [get_candidates_none_key (by simp [hocc]) hb] at h
      exact Option.noConfusion h
    | some bucket =>
      rw [get_candidates_eq_some (by simp [hocc]) hb] at h
      have hfold := Option.some.inj h
      rw [get_candidates_fold_eq] at hfold
      rw [survivors_eq_of_bucket hb]
      exact hfold.symm

theorem edgeDecision_of_groups {tiles : List (TileId × Tile)}
    {ix : EdgeIndex} {solution : TileLocationSolution} {e : ExposedEdge}
    {groups : List (TileId × List Manipulation)}
    (hg : get_candidates tiles ix solution e = some groups) :
    edgeDecision tiles ix solution e =
      (if groups.length > 1 then some none
       else match groups with
        | [] => some none
        | (tile_id, manipulations) :: _ =>
          match manipulations with
          | [m] => some (some (tile_id, m))
          | _ => some none) := by
  unfold edgeDecision
  rw [hg]

theorem edgeDecision_commit_iff {tiles : List (TileId × Tile)}
    {ix : EdgeIndex} {solution : TileLocationSolution} {e : ExposedEdge}
    {t : TileId} {m : Manipulation} :
    edgeDecision tiles ix solution e = some (some (t, m)) ↔
      ((solution.get_tile_at_position
          (get_neighbour e.pos e.direction)).isSome = false
        ∧ (alookup ix e.edge_pattern).isSome
        ∧ survivors tiles ix solution e = [(t, m)]) := by
  constructor
  · intro h
    by_cases hocc : (solution.get_tile_at_position
        (get_neighbour e.pos e.direction)).isSome
    · unfold edgeDecision at h
      rw [get_candidates_none_occupied hocc] at h
      exact Option.noConfusion h
    · cases hb : alookup ix e.edge_pattern with
      | none =>
        unfold edgeDecision at h
        rw [get_candidates_none_key (by simp [hocc]) hb] at h
        exact Option.noConfusion h
      | some bucket =>
        have hg := @get_candidates_eq_some tiles ix solution e bucket
          (by simp [hocc]) hb
        have hgrp := get_candidates_eq_candGroups hg
        rw [edgeDecision_of_groups hg] at h
        refine ⟨by simp [hocc], by simp [hb], ?_⟩
        set groups := (bucket.foldl (fun result cand =>
          if (solution.get_position_of_tile cand.tile_id).isSome then result
          else if candidate_fits_neighbours cand
              (get_neighbour e.pos e.direction) tiles solution then
            candPush result cand.tile_id cand.manipulation
          else result) []) with hgroups
    -- analyse the branch structure of the decision
        by_cases hlen : groups.length > 1
        · rw [if_pos hlen] at h
          exact Option.noConfusion (Option.some.inj h)
        · rw [if_neg hlen] at h
          cases hgs : groups with
          | nil =>
            rw [hgs] at h
            exact Option.noConfusion (Option.some.inj h)
          | cons g0 grest =>
            obtain ⟨t0, ms⟩ := g0
            rw [hgs] at h
            cases ms with
            | nil => exact Option.noConfusion (Option.some.inj h)
            | cons m0 mrest =>
              cases mrest with
              | cons _ _ => exact Option.noConfusion (Option.some.inj h)
              | nil =>
                have hpair := Option.some.inj (Option.some.inj h)
                injection hpair with h1 h2
                subst h1
                subst h2
                rw [hgs] at hlen
                cases grest with
                | cons _ _ => simp at hlen
                | nil =>
                  have : candGroups (survivors tiles ix solution e) =
                      [(t0, [m0])] := by
                    rw [← hgrp, hgs]
                  exact candGroups_single_iff.mp this
  · rintro ⟨hocc, hkey, hsurv⟩
    obtain ⟨bucket, hb⟩ := Option.isSome_iff_exists.mp hkey
    have hg := @get_candidates_eq_some tiles ix solution e bucket hocc hb
    have hfold : (bucket.foldl (fun result cand =>
        if (solution.get_position_of_tile cand.tile_id).isSome then result
        else if candidate_fits_neighbours cand
            (get_neighbour e.pos e.direction) tiles solution then
          candPush result cand.tile_id cand.manipulation
        else result) []) = [(t, [m])] := by
      rw [get_candidates_fold_eq,
        ← @survivors_eq_of_bucket tiles ix solution e bucket hb, hsurv]
      rfl
    rw [edgeDecision_of_groups hg, hfold]
    rfl

theorem scanFrontier_some {tiles : List (TileId × Tile)} {ix : EdgeIndex}
    {sol : TileLocationSolution} :
    ∀ {edges : List ExposedEdge} {t : TileId} {m : Manipulation}
      {pos : Position},
    scanFrontier tiles ix sol edges = some (t, m, pos) →
    ∃ e ∈ edges, edgeDecision tiles ix sol e = some (some (t, m)) ∧
      pos = get_neighbour e.pos e.direction := by
  intro edges
  induction edges with
  | nil => intro t m pos h; simp [scanFrontier] at h
  | cons e rest ih =>
    intro t m pos h
    unfold scanFrontier at h
    cases hd : edgeDecision tiles ix sol e with
    | none => rw [hd] at h; exact Option.noConfusion h
    | some dec =>
      rw [hd] at h
      cases dec with
      | none =>
        obtain ⟨e', he', hrest⟩ := ih h
        exact ⟨e', by simp [he'], hrest⟩
      | some tm =>
        obtain ⟨t0, m0⟩ := tm
        have := Option.some.inj h
        injection this with h1 h2
        injection h2 with h2 h3
        subst h1; subst h2; subst h3
        exact ⟨e, by simp, hd, rfl⟩

theorem list_filter_ne_lt {l : List TileId} {a : TileId} (h : a ∈ l) :
    (l.filter (fun t => !(t == a))).length < l.length := by
  induction l with
  | nil => simp at h
  | cons x xs ih =>
    rw [List.filter_cons]
    by_cases hx : x = a
    · subst hx
      rw [if_neg (by simp)]
      have := List.length_filter_le (fun t => !(t == x)) xs
      simp only [List.length_cons]
      omega
    · have ha : a ∈ xs := by
        rcases List.mem_cons.mp h with h' | h'
        · exact absurd h'.symm hx
        · exact h'
      rw [if_pos (by simp [hx])]
      simp only [List.length_cons]
      exact Nat.succ_lt_succ (ih ha)

theorem place_spec {tile_id : TileId} {how : Manipulation} {pos : Position}
    {tiles : List (TileId × Tile)} {sol sol' : TileLocationSolution}
    {todo todo' : List TileId}
    (h : place tile_id how pos tiles sol todo = some (sol', todo')) :
    ∃ tile, alookup tiles tile_id = some tile ∧
      sol' = sol.place_tile tile how pos ∧
      todo' = todo.filter (fun t => !(t == tile_id)) ∧
      tile_id ∈ todo ∧ sol.get_position_of_tile tile_id = none := by
  cases hc : alookup tiles tile_id with
  | none =>
    unfold place at h
    rw [hc] at h
    exact Option.noConfusion h
  | some tile =>
    have heq : place tile_id how pos tiles sol todo =
        (if (sol.get_position_of_tile tile_id).isSome then none
         else if todo.contains tile_id then
           some (sol.place_tile tile how pos,
             todo.filter (fun t => !(t == tile_id)))
         else none) := by
      unfold place
      rw [hc]
    rw [heq] at h
    by_cases hplaced : (sol.get_position_of_tile tile_id).isSome
    · rw [if_pos hplaced] at h
      exact Option.noConfusion h
    · rw [if_neg hplaced] at h
      by_cases hmem : todo.contains tile_id
      · rw [if_pos hmem] at h
        have := Option.some.inj h
        injection this with h1 h2
        refine ⟨tile, rfl, h1.symm, h2.symm, ?_, ?_⟩
        · simpa using hmem
        · simpa using hplaced
      · rw [if_neg hmem] at h
        exact Option.noConfusion h

theorem place_len {tile_id : TileId} {how : Manipulation} {pos : Position}
    {tiles : List (TileId × Tile)} {sol sol' : TileLocationSolution}
    {todo todo' : List TileId}
    (h : place tile_id how pos tiles sol todo = some (sol', todo')) :
    sol'.len = sol.len + 1 ∧ todo'.length < todo.length := by
  obtain ⟨tile, -, hsol, htodo, hmem, -⟩ := place_spec h
  constructor
  · rw [hsol]
    rfl
  · rw [htodo]
    exact list_filter_ne_lt hmem

/-- C1: whenever `solve1x` makes a placement, the scanned frontier contains
an edge at which exactly one unplaced (tile id, manipulation) pair survives
the full four-sided validation against every placed neighbour, the
placement is that unique pair at that edge's adjacent position, exactly one
tile is added before the scan restarts, and any edge with two or more
surviving pairs (several tiles or several manipulations) is never the one
committed. -/
theorem claim_C1_commit_exactly_one (tiles : List (TileId × Tile))
    (ix : EdgeIndex) (sol sol' : TileLocationSolution)
    (todo todo' : List TileId)
    (h : solve1x tiles ix sol todo = some (sol', todo')) :
    (∃ e ∈ sol.exposed_edges, ∃ t m,
        survivors tiles ix sol e = [(t, m)] ∧
        place t m (get_neighbour e.pos e.direction) tiles sol todo =
          some (sol', todo'))
    ∧ sol'.len = sol.len + 1
    ∧ (∀ e ∈ sol.exposed_edges, ∀ t m,
        2 ≤ (survivors tiles ix sol e).length →
        edgeDecision tiles ix sol e ≠ some (some (t, m))) := by
  have hdefer : ∀ e ∈ sol.exposed_edges, ∀ t m,
      2 ≤ (survivors tiles ix sol e).length →
      edgeDecision tiles ix sol e ≠ some (some (t, m)) := by
    intro e _ t m hlen hdec
    obtain ⟨-, -, hsurv⟩ := edgeDecision_commit_iff.mp hdec
    rw [hsurv] at hlen
    simp at hlen
  unfold solve1x at h
  by_cases hfull : sol.len = tiles.length
  · rw [if_pos hfull] at h
    exact Option.noConfusion h
  · rw [if_neg hfull] at h
    cases hscan : scanFrontier tiles ix sol sol.exposed_edges with
    | none => rw [hscan] at h; exact Option.noConfusion h
    | some tmp =>
      rw [hscan] at h
      obtain ⟨t, m, pos⟩ := tmp
      obtain ⟨e, he, hdec, hpos⟩ := scanFrontier_some hscan
      obtain ⟨-, -, hsurv⟩ := edgeDecision_commit_iff.mp hdec
      refine ⟨⟨e, he, t, m, hsurv, ?_⟩, (place_len h).1, hdefer⟩
      rw [← hpos]
      exact h

set_option maxRecDepth 400000 in
/-- C1 witness: the exactly-one rule applied to the two-tile fixture, where
`solve1x` places tile 2 at (1,0); the projected conclusion records that the
scan commits exactly one placement. -/
theorem claim_C1_witness :
    (solA.place_tile tileB Manipulation.noop { x := 1, y := 0 }).len =
      solA.len + 1 :=
  (claim_C1_commit_exactly_one catalogAB ixAB solA
    (solA.place_tile tileB Manipulation.noop { x := 1, y := 0 })
    [tileB.id] [] (by decide)).2.1

/-! ### Deadlock detection and progress (C4) -/

theorem solve1x_place {tiles : List (TileId × Tile)} {ix : EdgeIndex}
    {sol sol' : TileLocationSolution} {todo todo' : List TileId}
    (h : solve1x tiles ix sol todo = some (sol', todo')) :
    ∃ tid how pos, place tid how pos tiles sol todo = some (sol', todo') := by
  unfold solve1x at h
  by_cases hfull : sol.len = tiles.length
  · rw [if_pos hfull] at h
    exact Option.noConfusion h
  · rw [if_neg hfull] at h
    cases hscan : scanFrontier tiles ix sol sol.exposed_edges with
    | none => rw [hscan] at h; exact Option.noConfusion h
    | some tmp =>
      rw [hscan] at h
      obtain ⟨t, m, pos⟩ := tmp
      exact ⟨t, m, pos, h⟩

theorem alookup_cons_isSome_mono {α β : Type} [DecidableEq α] {l : List (α × β)}
    {k k' : α} {v : β} (h : (alookup l k').isSome) :
    (alookup ((k, v) :: l) k').isSome := by
  rw [alookup_cons]
  by_cases hk : k' = k
  · simp [hk]
  · rw [if_neg hk]; exact h

theorem place_covers {tiles : List (TileId × Tile)}
    {sol sol' : TileLocationSolution} {todo todo' : List TileId}
    {tid : TileId} {how : Manipulation} {pos : Position}
    (hwf : ∀ p ∈ tiles, p.2.id = p.1)
    (h : place tid how pos tiles sol todo = some (sol', todo'))
    (hcov : ∀ p ∈ tiles, p.1 ∈ todo ∨ (sol.get_position_of_tile p.1).isSome) :
    ∀ p ∈ tiles, p.1 ∈ todo' ∨ (sol'.get_position_of_tile p.1).isSome := by
  obtain ⟨tile, hc, hsol, htodo, hmem, -⟩ := place_spec h
  have htid : tile.id = tid := hwf (tid, tile) (alookup_mem hc)
  intro p hp
  rcases hcov p hp with hin | hplaced
  · by_cases hpt : p.1 = tid
    · right
      rw [hsol]
      unfold TileLocationSolution.get_position_of_tile
      rw [place_tile_t2p, alookup_cons, if_pos (by rw [hpt, htid])]
      rfl
    · left
      rw [htodo]
      rw [List.mem_filter]
      exact ⟨hin, by simp [hpt]⟩
  · right
    rw [hsol]
    unfold TileLocationSolution.get_position_of_tile at hplaced ⊢
    rw [place_tile_t2p]
    exact alookup_cons_isSome_mono hplaced

theorem solve1Loop_complete {tiles : List (TileId × Tile)} {ix : EdgeIndex}
    (hwf : ∀ p ∈ tiles, p.2.id = p.1) :
    ∀ (fuel : Nat) (sol : TileLocationSolution) (todo : List TileId)
      (out : TileLocationSolution),
    (∀ p ∈ tiles, p.1 ∈ todo ∨ (sol.get_position_of_tile p.1).isSome) →
    solve1Loop tiles ix fuel sol todo = some out →
    ∀ p ∈ tiles, (out.get_position_of_tile p.1).isSome := by
  intro fuel
  induction fuel with
  | zero =>
    intro sol todo out hcov h p hp
    cases todo with
    | nil =>
      obtain rfl : sol = out := by
        unfold solve1Loop at h
        injection h
      rcases hcov p hp with hin | hplaced
      · simp at hin
      · exact hplaced
    | cons t ts =>
      unfold solve1Loop at h
      exact Option.noConfusion h
  | succ n ih =>
    intro sol todo out hcov h p hp
    cases todo with
    | nil =>
      obtain rfl : sol = out := by
        unfold solve1Loop at h
        injection h
      rcases hcov p hp with hin | hplaced
      · simp at hin
      · exact hplaced
    | cons t ts =>
      unfold solve1Loop at h
      cases hs : solve1x tiles ix sol (t :: ts) with
      | none => rw [hs] at h; exact Option.noConfusion h
      | some st =>
        rw [hs] at h
        obtain ⟨sol1, todo1⟩ := st
        have h' : (if (t :: ts).length ≤ todo1.length then none
            else solve1Loop tiles ix n sol1 todo1) = some out := h
        by_cases hprog : (t :: ts).length ≤ todo1.length
        · rw [if_pos hprog] at h'
          exact Option.noConfusion h'
        · rw [if_neg hprog] at h'
          obtain ⟨tid, how, pos, hplace⟩ := solve1x_place hs
          exact ih sol1 todo1 out (place_covers hwf hplace hcov) h' p hp

theorem minKey_none {tiles : List (TileId × Tile)}
    (h : minKey tiles = none) : tiles = [] := by
  cases tiles with
  | nil => rfl
  | cons p rest =>
    unfold minKey at h
    exact Option.noConfusion h

theorem solve1_eq_of_min {tiles : List (TileId × Tile)} {ix : EdgeIndex}
    {mp : Manipulation} {initial : TileId}
    (hm : minKey tiles = some initial) :
    solve1 tiles ix mp =
      match place initial mp { x := 0, y := 0 } tiles
          TileLocationSolution.new (tiles.map (fun p => p.1)) with
      | none => none
      | some (solution, todo') =>
        solve1Loop tiles ix todo'.length solution todo' := by
  unfold solve1
  rw [hm]

/-- C4: (i) a frontier scan that commits no placement makes `solve1x` fail
fatally rather than guess; (ii) every successful `solve1x` call strictly
decreases the todo set; (iii) `solve1` returns a solution only when every
catalog tile has been placed. -/
theorem claim_C4_deadlock_and_progress (tiles : List (TileId × Tile))
    (ix : EdgeIndex) (sol sol' : TileLocationSolution)
    (todo todo' : List TileId) (mp : Manipulation)
    (out : TileLocationSolution) (hwf : ∀ p ∈ tiles, p.2.id = p.1) :
    (scanFrontier tiles ix sol sol.exposed_edges = none →
      solve1x tiles ix sol todo = none)
    ∧ (solve1x tiles ix sol todo = some (sol', todo') →
      todo'.length < todo.length)
    ∧ (solve1 tiles ix mp = some out →
      ∀ p ∈ tiles, (out.get_position_of_tile p.1).isSome) := by
  refine ⟨?_, ?_, ?_⟩
  · intro hscan
    unfold solve1x
    by_cases hfull : sol.len = tiles.length
    · rw [if_pos hfull]
    · rw [if_neg hfull, hscan]
  · intro h
    obtain ⟨tid, how, pos, hplace⟩ := solve1x_place h
    exact (place_len hplace).2
  · intro h p hp
    cases hm : minKey tiles with
    | none =>
      rw [minKey_none hm] at hp
      simp at hp
    | some initial =>
      rw [solve1_eq_of_min hm] at h
      cases hplace : place initial mp { x := 0, y := 0 } tiles
          TileLocationSolution.new (tiles.map (fun p => p.1)) with
      | none => rw [hplace] at h; exact Option.noConfusion h
      | some st =>
        rw [hplace] at h
        obtain ⟨sol0, todo0⟩ := st
        have hcov0 : ∀ q ∈ tiles, q.1 ∈ tiles.map (fun p => p.1) ∨
            (TileLocationSolution.new.get_position_of_tile q.1).isSome := by
          intro q hq
          exact Or.inl (List.mem_map.mpr ⟨q, hq, rfl⟩)
        exact solve1Loop_complete hwf todo0.length sol0 todo0 out
          (place_covers hwf hplace hcov0) h p hp

set_option maxRecDepth 1000000 in
/-- C4 witness: on the two-tile fixture `solve1` succeeds, and the
completeness conjunct shows tile 1 is placed in the returned solution. -/
theorem claim_C4_witness :
    (((solve1 catalogAB ixAB Manipulation.noop).getD
        TileLocationSolution.new).get_position_of_tile tileA.id).isSome :=
  (claim_C4_deadlock_and_progress catalogAB ixAB
      TileLocationSolution.new TileLocationSolution.new [] [] Manipulation.noop
      ((solve1 catalogAB ixAB Manipulation.noop).getD
        TileLocationSolution.new)
      (by decide)).2.2 (by decide) (tileA.id, tileA) (by decide)

/-! ### Grid assembly (C5) -/

end Day20
